import Mathlib

/-!
Verification of the concurrent interner's storage engine against its
specification.  The definitions below are a shallow embedding of the Rust
sources (`meta_data.rs`, `group_match.rs`, `bitmask.rs`, `raw_interner.rs`,
`interner.rs`): machine words are `Nat` with explicit masking, atomic
compare-and-swap loops are modelled over an explicit cell value (in the
sequential semantics a CAS succeeds exactly when the snapshot equals the
cell), and fallible or unboundedly looping code returns `Option`.
-/

namespace Interner

/-! ## Embedding of `src/meta_data.rs` -/

def LOCKED_BIT : Nat := 0x80

def PARK_BIT : Nat := 0x40

def GROUP_FULL_BIT_MASK : Nat := 0x7f00000000000000

def GROUP_MOVED_BIT_MASK : Nat := 0x8000000000000000

inductive ReserveResult where
  | Reserved
  | OccupiedWithSameH2
  | AlreadyReservedWithOtherH2
  | AlreadyReservedWithSameH2
  | SlotAvailableButGroupMoved
  deriving DecidableEq, Repr

def valid_bit (index : Nat) : Nat := 1 <<< (64 - 8 + index)

def test_valid_bit (g index : Nat) : Bool := g &&& valid_bit index != 0

def h2_bits (h2 index : Nat) : Nat := h2 <<< (8 * index)

def h2_from_meta (g index : Nat) : Nat := (g >>> (8 * index)) % 256

def lock_bit (index : Nat) : Nat := LOCKED_BIT <<< (8 * index)

def test_lock_bit (g index : Nat) : Bool := g &&& lock_bit index != 0

def park_bit (index : Nat) : Nat := PARK_BIT <<< (8 * index)

def test_park_bit (g index : Nat) : Bool := g &&& park_bit index != 0

def bucket_moved (g : Nat) : Bool := g &&& GROUP_MOVED_BIT_MASK == GROUP_MOVED_BIT_MASK

def bucket_full (g : Nat) : Bool := g &&& GROUP_FULL_BIT_MASK == GROUP_FULL_BIT_MASK

def get_valid_bits (g : Nat) : Nat := (g &&& GROUP_FULL_BIT_MASK) >>> (64 - 8)

/-- The word installed by the CAS in `MetaData::reserve`:
`*group_meta_data | h2_bits(h2 & 0x3F | LOCKED_BIT, index)`. -/
def reserveNewWord (g h2 index : Nat) : Nat :=
  g ||| h2_bits ((h2 &&& 0x3F) ||| LOCKED_BIT) index

/-- The CAS loop of `MetaData::reserve`.  `cell` is the current contents of the
atomic word; `g` is the caller's snapshot.  A CAS succeeds exactly when the
snapshot equals the cell, otherwise the snapshot is refreshed from the cell
and the loop re-decides.  Returns `(result, final snapshot, final cell)`. -/
def reserveLoop : Nat → Nat → Nat → Nat → Nat → Option (ReserveResult × Nat × Nat)
  | 0, _, _, _, _ => none
  | fuel + 1, cell, g, h2, index =>
    if test_valid_bit g index then
      if h2_from_meta g index = h2 then some (.OccupiedWithSameH2, g, cell)
      else some (.AlreadyReservedWithOtherH2, g, cell)
    else if test_lock_bit g index then
      if h2_from_meta g index &&& 0x3F = h2 &&& 0x3F then
        some (.AlreadyReservedWithSameH2, g, cell)
      else some (.AlreadyReservedWithOtherH2, g, cell)
    else if bucket_moved g then some (.SlotAvailableButGroupMoved, g, cell)
    else
      let newWord := reserveNewWord g h2 index
      if cell = g then some (.Reserved, newWord, newWord)
      else reserveLoop fuel cell cell h2 index

/-- `MetaData::reserve` in the sequential semantics: two loop iterations always
suffice, because after one failed CAS the snapshot equals the cell. -/
def reserve (cell g h2 index : Nat) : Option (ReserveResult × Nat × Nat) :=
  reserveLoop 2 cell g h2 index

/-- 64-bit complement, as Rust's `!` on `u64`. -/
def NOT64 (x : Nat) : Nat := x ^^^ (2 ^ 64 - 1)

/-- 8-bit complement, as Rust's `!` on `u8`. -/
def NOT8 (x : Nat) : Nat := x ^^^ 0xFF

/-- The word installed by the CAS in `MetaData::set_valid_and_unpark`:
`(group_meta_data & !h2_bits(0xff, index)) | valid_bit(index) | h2_bits(h2, index)`. -/
def setValidNewWord (g h2 index : Nat) : Nat :=
  g &&& NOT64 (h2_bits 0xFF index) ||| valid_bit index ||| h2_bits h2 index

/-- The word installed by the parked-bit CAS in `MetaData::wait_on_lock_release`. -/
def parkNewWord (g index : Nat) : Nat := g ||| park_bit index

/-- The word after the fetch-or in `MetaData::mark_as_moved`. -/
def markMovedNewWord (g : Nat) : Nat := g ||| GROUP_MOVED_BIT_MASK

/-- `MetaData::mark_as_moved`: the fetch-or of the moved bit.  Input is the
current cell value; output is the captured snapshot (old word with the moved
bit set, also the new cell value) and the returned flag
`!bucket_moved(old)`. -/
def mark_as_moved (cell : Nat) : Nat × Bool :=
  (markMovedNewWord cell, !bucket_moved cell)

/-- `atomic_wait::lock_addr`: parking key of (metadata word address, slot). -/
def lock_addr (addr index : Nat) : Nat := addr + index

/-- The CAS loop of `MetaData::set_valid_and_unpark` over cell value `cell`
and snapshot `g`.  On success it returns the installed word, the parking key
woken by `wake_all` when the PARKED bit was observed in the replaced word,
and the returned bucket-moved flag of the replaced word. -/
def setValidLoop : Nat → Nat → Nat → Nat → Nat → Nat → Option (Nat × Option Nat × Bool)
  | 0, _, _, _, _, _ => none
  | fuel + 1, addr, cell, g, h2, index =>
    if cell = g then
      some (setValidNewWord g h2 index,
        if test_park_bit g index then some (lock_addr addr index) else none,
        bucket_moved g)
    else setValidLoop fuel addr cell cell h2 index

/-- `MetaData::set_valid_and_unpark` in the sequential semantics (two loop
iterations always suffice). -/
def set_valid_and_unpark (addr cell g h2 index : Nat) : Option (Nat × Option Nat × Bool) :=
  setValidLoop 2 addr cell g h2 index

/-! ## Embedding of `src/bitmask.rs` and `src/group_match.rs` -/

/-- `u8::trailing_zeros` for non-zero 8-bit masks. -/
def trailing_zeros8 (m : Nat) : Nat := (List.range 8).findIdx (fun i => m.testBit i)

/-- `BitMaskIter::next` unfolded to a list: yields `trailing_zeros` and clears
the lowest set bit until the mask is zero. -/
def bitMaskList : Nat → Nat → List Nat
  | 0, _ => []
  | fuel + 1, m => if m = 0 then [] else trailing_zeros8 m :: bitMaskList fuel (m &&& (m - 1))

/-- The full index sequence yielded by `BitMaskIter::new(m)` for `m < 256`. -/
def bitMaskIter (m : Nat) : List Nat := bitMaskList 8 m

/-- Byte lane `i` of a 64-bit word (little-endian, as `u64::to_ne_bytes` on
the x86 targets the SIMD module is written for). -/
def byteOf (w i : Nat) : Nat := w / 2 ^ (8 * i) % 256

/-- A bitmask whose bit `i` (for `i < n`) is `f i`; used to model
`Simd::to_bitmask`. -/
def maskBits (f : Nat → Bool) : Nat → Nat
  | 0 => 0
  | n + 1 => maskBits f n ||| (if f n then 2 ^ n else 0)

/-- `hashes.simd_eq(splat(value)).to_bitmask()`. -/
def simd_eq_mask (hashes value : Nat) : Nat := maskBits (fun i => byteOf hashes i == value) 8

/-- `hashes.simd_ne(splat(0)).to_bitmask()`. -/
def simd_ne_zero_mask (hashes : Nat) : Nat := maskBits (fun i => byteOf hashes i != 0) 8

/-- `group_match::match_byte` as the index sequence its `BitMaskIter` yields. -/
def match_byte (valid_bits hashes value : Nat) : List Nat :=
  bitMaskIter (simd_eq_mask hashes value &&& valid_bits)

/-- `u8-mask popcount`, modelling `count_ones` on an 8-bit mask. -/
def count_ones8 (x : Nat) : Nat := ((List.range 8).filter (fun i => x.testBit i)).length

/-- `group_match::count_locked_slots`. -/
def count_locked_slots (valid_bits hashes : Nat) : Int :=
  (count_ones8 (simd_ne_zero_mask hashes &&& NOT8 valid_bits &&& 0x7F) : Int)

/-! ## Embedding of `src/raw_interner.rs` -/

/-- `h1`: the hash truncated to `usize` (64-bit platform). -/
def h1 (hash : Nat) : Nat := hash % 2 ^ 64

/-- `h2`: the top 8 bits of the 64-bit hash. -/
def h2 (hash : Nat) : Nat := hash / 2 ^ 56 % 256

/-- Rust `usize::next_power_of_two`, structurally (fuel 64 covers `u64`). -/
def next_pow_two_aux : Nat → Nat → Nat
  | 0, _ => 1
  | fuel + 1, x => if x ≤ 1 then 1 else 2 * next_pow_two_aux fuel ((x + 1) / 2)

def next_power_of_two (x : Nat) : Nat := next_pow_two_aux 64 x

/-- `capacity_to_buckets`: `checked_mul(7)` fails when the product exceeds
`usize::MAX`; the following `+ 5` is a plain `usize` addition, which wraps
modulo `2^64` (release semantics) when `7·cap` is within 5 of `usize::MAX`;
then division by 6 and rounding up to a power of two. -/
def capacity_to_buckets (cap : Nat) : Option Nat :=
  if 2 ^ 64 ≤ cap * 7 then none
  else some (next_power_of_two ((cap * 7 + 5) % 2 ^ 64 / 6))

def buckets_to_resize_limit (buckets : Nat) : Nat := if buckets ≤ 64 then 1 else 4

/-- Sequential model of one `RawInterner` table.  `meta` gives each bucket's
metadata word, `slots` the seven slot cells of each bucket (values of
unwritten cells are junk that the verified paths never read). -/
structure Table (T : Type) where
  bucketMask : Nat
  resizeLimit : Nat
  nextCompleted : Bool
  toBeMoved : Int
  meta : Nat → Nat
  slots : Nat → Nat → T

def tableBuckets {T : Type} (t : Table T) : Nat := t.bucketMask + 1

/-- `RawInterner::new`: no allocation, `bucket_mask = 0`, `resize_limit = 0`.
The bucket pointer is null, so `meta`/`slots` are arbitrary junk functions:
the theorems about this table hold for every choice, which is exactly the
statement that the null pointer is never dereferenced. -/
def RawInterner_new {T : Type} (meta0 : Nat → Nat) (slots0 : Nat → Nat → T) : Table T :=
  { bucketMask := 0, resizeLimit := 0, nextCompleted := false, toBeMoved := -1,
    meta := meta0, slots := slots0 }

/-- `RawInterner::new_uninitialized`: zeroed metadata (`alloc_zeroed`),
`to_be_moved = −buckets`. -/
def new_uninitialized {T : Type} (z : T) (buckets : Nat) : Table T :=
  { bucketMask := buckets - 1, resizeLimit := buckets_to_resize_limit buckets,
    nextCompleted := false, toBeMoved := -(buckets : Int),
    meta := fun _ => 0, slots := fun _ _ => z }

/-- `RawInterner::with_capacity` (`none` models the capacity-overflow panic). -/
def with_capacity {T : Type} (z : T) (capacity : Nat) : Option (Table T) :=
  if capacity = 0 then some (RawInterner_new (fun _ => 0) (fun _ _ => z))
  else (capacity_to_buckets capacity).map (new_uninitialized z)

/-- `RawInterner::probe_seq` unfolded: `ProbeSeq::next` yields
`(pos + stride) & bucket_mask` for `stride = 0, 1, …` and stops once
`stride ≥ resize_limit`; `pos` itself is never updated. -/
def probePositions {T : Type} (t : Table T) (hash : Nat) : List Nat :=
  (List.range t.resizeLimit).map (fun stride => (h1 hash + stride) &&& t.bucketMask)

inductive InnerOut (T : Type) where
  | found (v : T)
  | reserved (index : Nat) (newWord : Nat)
  | moved
  | blocked
  | fallthrough

/-- The reserve loop over the free-slot indices in `lock_or_get_slot`.  In
the sequential semantics the local snapshot always equals the cell `m`, so
each `reserve` call is a pure decision on `m`; `AlreadyReservedWithSameH2`
leads to `wait_on_lock_release`, which with no peer thread parks forever
(`blocked`). -/
def slotLoop {T : Type} (m : Nat) (slots : Nat → T) (h2v : Nat) (q : T → Bool) :
    List Nat → InnerOut T
  | [] => .fallthrough
  | index :: rest =>
    if test_valid_bit m index then
      if h2_from_meta m index = h2v then
        if q (slots index) then .found (slots index) else slotLoop m slots h2v q rest
      else slotLoop m slots h2v q rest
    else if test_lock_bit m index then
      if h2_from_meta m index &&& 0x3F = h2v &&& 0x3F then .blocked
      else slotLoop m slots h2v q rest
    else if bucket_moved m then .moved
    else .reserved index (reserveNewWord m h2v index)

/-- The H2-match phase of `lock_or_get_slot`/`get`: first index in the match
sequence whose slot satisfies the equality predicate. -/
def findMatch {T : Type} (slots : Nat → T) (q : T → Bool) : List Nat → Option T
  | [] => none
  | i :: rest => if q (slots i) then some (slots i) else findMatch slots q rest

inductive BucketOut (T : Type) where
  | found (v : T)
  | continueNext
  | reserved (index : Nat) (newWord : Nat)
  | moved
  | blocked

/-- One bucket iteration of `lock_or_get_slot`. -/
def lockBucket {T : Type} (m : Nat) (slots : Nat → T) (h2v : Nat) (q : T → Bool) :
    BucketOut T :=
  match findMatch slots q (match_byte (get_valid_bits m) m h2v) with
  | some v => .found v
  | none =>
    if bucket_full m then .continueNext
    else
      match slotLoop m slots h2v q (bitMaskIter (NOT8 (get_valid_bits m) &&& 0x7F)) with
      | .found v => .found v
      | .reserved i w => .reserved i w
      | .moved => .moved
      | .blocked => .blocked
      | .fallthrough => .continueNext

inductive LockResult (T : Type) where
  | ResizeNeeded
  | Moved
  | Locked (pos index word : Nat)
  | Found (v : T)
  | Blocked
  deriving DecidableEq

def lockOrGetGo {T : Type} (t : Table T) (h2v : Nat) (q : T → Bool) :
    List Nat → LockResult T
  | [] => .ResizeNeeded
  | pos :: rest =>
    match lockBucket (t.meta pos) (t.slots pos) h2v q with
    | .found v => .Found v
    | .continueNext => lockOrGetGo t h2v q rest
    | .reserved i w => .Locked pos i w
    | .moved => .Moved
    | .blocked => .Blocked

/-- `RawInterner::lock_or_get_slot` in the sequential semantics. -/
def lock_or_get_slot {T : Type} (t : Table T) (hash : Nat) (q : T → Bool) : LockResult T :=
  lockOrGetGo t (h2 hash) q (probePositions t hash)

def updFun {α : Type} (f : Nat → α) (k : Nat) (v : α) : Nat → α :=
  fun n => if n = k then v else f n

def updFun2 {α : Type} (f : Nat → Nat → α) (p i : Nat) (v : α) : Nat → Nat → α :=
  fun a b => if a = p then (if b = i then v else f a b) else f a b

/-- The state change of `Bucket::set_slot` followed by the publish CAS of
`set_valid_and_unpark` (the replaced word is the `LockedData` snapshot `w`,
which in the sequential semantics is the cell value). -/
def publishTable {T : Type} (t : Table T) (pos index h2v : Nat) (v : T) (w : Nat) :
    Table T :=
  { t with
      slots := updFun2 t.slots pos index v,
      meta := updFun t.meta pos (setValidNewWord w h2v index) }

/-- `RawInterner::unlock_and_set_value`, split at the bucket-moved branch:
the table after slot write + publish, and whether the forward-transfer
branch was taken. -/
def unlock_and_set_value {T : Type} (t : Table T) (hash : Nat) (v : T)
    (pos index w : Nat) : Table T × Bool :=
  (publishTable t pos index (h2 hash) v w, bucket_moved w)

inductive GetOut (T : Type) where
  | foundVal (v : T)
  | movedNone
  | breakOut
  | exhausted

/-- The probe loop of `RawInterner::get`. -/
def getGo {T : Type} (t : Table T) (h2v : Nat) (p : T → Bool) : List Nat → GetOut T
  | [] => .exhausted
  | pos :: rest =>
    match findMatch (t.slots pos) p (match_byte (get_valid_bits (t.meta pos)) (t.meta pos) h2v) with
    | some v => .foundVal v
    | none =>
      if bucket_full (t.meta pos) then getGo t h2v p rest
      else if bucket_moved (t.meta pos) then .movedNone
      else .breakOut

/-- `RawInterner::get`: `none` means "absent here, forward to the successor";
`some none` means definitively absent. -/
def get {T : Type} (t : Table T) (hash : Nat) (p : T → Bool) : Option (Option T) :=
  match getGo t (h2 hash) p (probePositions t hash) with
  | .foundVal v => some (some v)
  | .movedNone => none
  | _ => if t.nextCompleted then none else some none

/-- `RawInterner::get` with the table threaded through every step, making the
absence of writes a statement rather than a typing convention: every branch
of the source performs only loads, so every branch returns the table it was
given. -/
def getGoSt {T : Type} (t : Table T) (h2v : Nat) (p : T → Bool) :
    List Nat → GetOut T × Table T
  | [] => (.exhausted, t)
  | pos :: rest =>
    match findMatch (t.slots pos) p (match_byte (get_valid_bits (t.meta pos)) (t.meta pos) h2v) with
    | some v => (.foundVal v, t)
    | none =>
      if bucket_full (t.meta pos) then getGoSt t h2v p rest
      else if bucket_moved (t.meta pos) then (.movedNone, t)
      else (.breakOut, t)

/-- `Bucket::transfer_bucket`: sticky fetch-or of the moved bit; the loser
contributes 0; the winner walks the valid bits of the captured snapshot,
forwarding each valid slot (returned here as the list of transferred values,
in iteration order), and contributes `count_locked_slots + 1`. -/
def transfer_bucket {T : Type} (cellMeta : Nat) (slots : Nat → T) : Int × List T :=
  let r := mark_as_moved cellMeta
  if r.2 = false then (0, [])
  else
    let vb := get_valid_bits r.1
    (count_locked_slots vb r.1 + 1, (bitMaskIter vb).map slots)

/-! ## The table chain and `Interner::intern_ref`

Tables form a forward chain (head first); the successor pointer of table
`k` is table `k + 1` of the list, and `get_next_raw_interner` on the last
table returns null.  The sequential semantics below models all executions
of `intern_ref`, including successor allocation and bulk migration;
exhaustion of the explicit recursion fuel (or a path that dereferences an
absent successor, or parks forever) yields `none`. -/

/-- A metadata word whose LOCKED bit is only set on lanes whose valid bit is
clear when some thread actually holds the reservation.  In the sequential
(quiescent) semantics no thread holds a reservation between calls, so a
clear valid bit implies a clear LOCKED bit (for a valid slot, bit
`8·i + 7` is part of the published H2 tag, not a lock flag). -/
def QuietWord (g : Nat) : Prop :=
  ∀ index, index < 7 → g.testBit (56 + index) = false → g.testBit (8 * index + 7) = false

def QuietTable {T : Type} (t : Table T) : Prop := ∀ pos, QuietWord (t.meta pos)

def QuietChain {T : Type} (ts : List (Table T)) : Prop := ∀ t ∈ ts, QuietTable t

/-- The reserve loop of `lock_slot_for_transfer` over the free-slot
indices: `OccupiedWithSameH2`, `AlreadyReservedWithSameH2` and
`AlreadyReservedWithOtherH2` are all treated as "continue", and `eq` is
never consulted. -/
def transferSlotLoop (m h2v : Nat) : List Nat → InnerOut Unit
  | [] => .fallthrough
  | index :: rest =>
    if test_valid_bit m index then transferSlotLoop m h2v rest
    else if test_lock_bit m index then transferSlotLoop m h2v rest
    else if bucket_moved m then .moved
    else .reserved index (reserveNewWord m h2v index)

def lockSlotForTransferGo {T : Type} (t : Table T) (h2v : Nat) : List Nat → LockResult T
  | [] => .ResizeNeeded
  | pos :: rest =>
    if bucket_full (t.meta pos) then lockSlotForTransferGo t h2v rest
    else
      match transferSlotLoop (t.meta pos) h2v
          (bitMaskIter (NOT8 (get_valid_bits (t.meta pos)) &&& 0x7F)) with
      | .reserved j w => .Locked pos j w
      | .moved => .Moved
      | _ => lockSlotForTransferGo t h2v rest

/-- `RawInterner::lock_slot_for_transfer` in the sequential semantics. -/
def lock_slot_for_transfer {T : Type} (t : Table T) (h2v hash : Nat) : LockResult T :=
  lockSlotForTransferGo t h2v (probePositions t hash)

/-- The per-bucket slot loop of `Bucket::transfer_bucket`: forward each
valid slot of the captured snapshot through the value-transfer function
`tv`, threading the successor chain. -/
def transferSlots {T : Type} (tv : T → List (Table T) → Option (List (Table T)))
    (slots : Nat → T) : List Nat → List (Table T) → Option (List (Table T))
  | [], chain => some chain
  | i :: restIdx, chain =>
    match tv (slots i) chain with
    | some chain2 => transferSlots tv slots restIdx chain2
    | none => none

/-- The bucket walk of `RawInterner::transfer`: per bucket, fetch-or the
moved bit; the loser of the 0→1 race contributes 0; the winner forwards the
snapshot's valid slots and contributes `count_locked_slots + 1`. -/
def transferAllBuckets {T : Type} (tv : T → List (Table T) → Option (List (Table T)))
    : List Nat → Table T → List (Table T) → Int → Option (Table T × List (Table T) × Int)
  | [], t, chain, acc => some (t, chain, acc)
  | pos :: restPos, t, chain, acc =>
    let r := mark_as_moved (t.meta pos)
    let t2 := { t with meta := updFun t.meta pos r.1 }
    if r.2 = false then transferAllBuckets tv restPos t2 chain acc
    else
      match transferSlots tv (t2.slots pos) (bitMaskIter (get_valid_bits r.1)) chain with
      | some chain2 =>
        transferAllBuckets tv restPos t2 chain2 (acc + (count_locked_slots (get_valid_bits r.1) r.1 + 1))
      | none => none

/-- `RawInterner::transfer` of one table into the successor chain,
parameterised by the value-transfer function: walks every bucket (the
`bucket_mask = 0` table from `RawInterner::new` owns no buckets and only
accounts one unit), then fetch-adds the total into `to_be_moved`. -/
def bulkTransferAux {T : Type} (tv : T → List (Table T) → Option (List (Table T)))
    (t : Table T) (chain : List (Table T)) : Option (Table T × List (Table T)) :=
  if t.bucketMask ≠ 0 then
    match transferAllBuckets tv (List.range (t.bucketMask + 1)) t chain 0 with
    | some (t2, chain2, total) =>
      some ({ t2 with toBeMoved := t2.toBeMoved + total }, chain2)
    | none => none
  else some ({ t with toBeMoved := t.toBeMoved + 1 }, chain)

/-- `RawInterner::transfer_value_to_newer_interner` against the chain at and
after the target table: walk forward, reserving via
`lock_slot_for_transfer`; on `ResizeNeeded` run `create_and_stor_next_raw_interner`
(allocate the double-size successor when absent, then bulk-transfer the
current table) and retry at the successor; on `Locked` publish the value
(`unlock_and_set_value`), whose bucket-moved branch forwards once more and
then decrements `to_be_moved`. -/
def transferValue {T : Type} (hashOf : T → Nat) (z : T)
    : Nat → T → List (Table T) → Option (List (Table T))
  | 0, _, _ => none
  | fuel + 1, v, ts =>
    match ts with
    | [] => none
    | t :: rest =>
      match lock_slot_for_transfer t (h2 (hashOf v)) (hashOf v) with
      | .Locked pos j w =>
        let t2 := publishTable t pos j (h2 (hashOf v)) v w
        if bucket_moved w then
          match transferValue hashOf z fuel v (t2 :: rest) with
          | some (t3 :: rest3) => some ({ t3 with toBeMoved := t3.toBeMoved - 1 } :: rest3)
          | _ => none
        else some (t2 :: rest)
      | .Moved =>
        match rest with
        | [] => none
        | next :: rest2 =>
          match transferValue hashOf z fuel v (next :: rest2) with
          | some rest3 => some (t :: rest3)
          | none => none
      | .ResizeNeeded =>
        let tsNext :=
          match rest with
          | [] => [new_uninitialized z ((t.bucketMask + 1) * 2)]
          | next :: rest2 => next :: rest2
        match bulkTransferAux (transferValue hashOf z fuel) t tsNext with
        | some (t2, chain2) =>
          match transferValue hashOf z fuel v chain2 with
          | some chain3 => some (t2 :: chain3)
          | none => none
        | none => none
      | .Found _ => none
      | .Blocked => none

/-- `Interner::intern_ref` driven against the chain: probe the current
table; on `Found` return the stored value; on `Locked` run `make`, publish
and return; on `ResizeNeeded` advance to the successor, allocating the
double-size successor and bulk-transferring when absent; on `Moved`
advance to the (necessarily present) successor.  The `Bool` records
whether `make` ran. -/
def internChain {T : Type} (hashOf : T → Nat) (z : T)
    : Nat → List (Table T) → Nat → (T → Bool) → (Unit → T) → Option (T × List (Table T) × Bool)
  | 0, _, _, _, _ => none
  | fuel + 1, ts, hash, q, mk =>
    match ts with
    | [] => none
    | t :: rest =>
      match lock_or_get_slot t hash q with
      | .Found v => some (v, t :: rest, false)
      | .Locked pos j w =>
        let v := mk ()
        let t2 := publishTable t pos j (h2 hash) v w
        if bucket_moved w then
          match transferValue hashOf z fuel v (t2 :: rest) with
          | some (t3 :: rest3) =>
            some (v, { t3 with toBeMoved := t3.toBeMoved - 1 } :: rest3, true)
          | _ => none
        else some (v, t2 :: rest, true)
      | .ResizeNeeded =>
        match rest with
        | [] =>
          let fresh := new_uninitialized z ((t.bucketMask + 1) * 2)
          match bulkTransferAux (transferValue hashOf z fuel) t [fresh] with
          | some (t2, chain2) =>
            match internChain hashOf z fuel chain2 hash q mk with
            | some (v, chain3, b) => some (v, t2 :: chain3, b)
            | none => none
          | none => none
        | next :: rest2 =>
          match internChain hashOf z fuel (next :: rest2) hash q mk with
          | some (v, rest3, b) => some (v, t :: rest3, b)
          | none => none
      | .Moved =>
        match rest with
        | [] => none
        | next :: rest2 =>
          match internChain hashOf z fuel (next :: rest2) hash q mk with
          | some (v, rest3, b) => some (v, t :: rest3, b)
          | none => none
      | .Blocked => none

/-! ## Bridging lemmas between the mask-style tests of the source and
bit-index statements -/

lemma land_two_pow (g k : Nat) : g &&& 2 ^ k = if g.testBit k then 2 ^ k else 0 := by
  apply Nat.eq_of_testBit_eq
  intro i
  rcases eq_or_ne i k with rfl | hik
  · cases h : g.testBit i <;> simp [Nat.testBit_and, Nat.testBit_two_pow, h]
  · cases h : g.testBit k <;>
      simp [Nat.testBit_and, Nat.testBit_two_pow, hik, Ne.symm hik, h]

lemma test_bit_mask (g k : Nat) : (g &&& (1 <<< k) != 0) = g.testBit k := by
  rw [Nat.one_shiftLeft, land_two_pow]
  cases h : g.testBit k <;>
    simp [h, (Nat.pos_pow_of_pos k (by norm_num : 0 < 2)).ne']

lemma test_valid_bit_eq (g index : Nat) :
    test_valid_bit g index = g.testBit (56 + index) := by
  have : 64 - 8 + index = 56 + index := by omega
  rw [test_valid_bit, valid_bit, this, test_bit_mask]

lemma test_lock_bit_eq (g index : Nat) :
    test_lock_bit g index = g.testBit (8 * index + 7) := by
  have h : lock_bit index = 1 <<< (8 * index + 7) := by
    rw [lock_bit, LOCKED_BIT, Nat.shiftLeft_eq, Nat.one_shiftLeft]
    have h7 : (0x80 : Nat) = 2 ^ 7 := by norm_num
    rw [h7, ← pow_add]
    congr 1
    omega
  rw [test_lock_bit, h, test_bit_mask]

lemma test_park_bit_eq (g index : Nat) :
    test_park_bit g index = g.testBit (8 * index + 6) := by
  have h : park_bit index = 1 <<< (8 * index + 6) := by
    rw [park_bit, PARK_BIT, Nat.shiftLeft_eq, Nat.one_shiftLeft]
    have h6 : (0x40 : Nat) = 2 ^ 6 := by norm_num
    rw [h6, ← pow_add]
    congr 1
    omega
  rw [test_park_bit, h, test_bit_mask]

lemma bucket_moved_eq (g : Nat) : bucket_moved g = g.testBit 63 := by
  have h63 : GROUP_MOVED_BIT_MASK = 2 ^ 63 := by norm_num [GROUP_MOVED_BIT_MASK]
  rw [bucket_moved, h63, land_two_pow]
  rcases Bool.eq_false_or_eq_true (g.testBit 63) with h | h <;> simp [h]

lemma h2_from_meta_eq (g index : Nat) :
    h2_from_meta g index = g / 2 ^ (8 * index) % 256 := by
  rw [h2_from_meta, Nat.shiftRight_eq_div_pow]

lemma valid_bit_eq (index : Nat) : valid_bit index = 2 ^ (56 + index) := by
  have h : 64 - 8 + index = 56 + index := by omega
  rw [valid_bit, Nat.one_shiftLeft, h]

lemma testBit_ff (k : Nat) : (0xFF : Nat).testBit k = decide (k < 8) := by
  rw [show (0xFF : Nat) = 2 ^ 8 - 1 by norm_num, Nat.testBit_two_pow_sub_one]

lemma testBit_h2_bits (x index b : Nat) :
    (h2_bits x index).testBit b = (decide (8 * index ≤ b) && x.testBit (b - 8 * index)) := by
  rw [h2_bits, Nat.testBit_shiftLeft]

lemma testBit_small_off {x b : Nat} (hx : x < 256) (hb : 8 ≤ b) : x.testBit b = false :=
  Nat.testBit_lt_two_pow
    (lt_of_lt_of_le hx (Nat.pow_le_pow_right (by norm_num : 0 < 2) hb))

lemma testBit_byteOf (w j k : Nat) :
    (byteOf w j).testBit k = (decide (k < 8) && w.testBit (8 * j + k)) := by
  rw [byteOf, ← Nat.shiftRight_eq_div_pow, show (256 : Nat) = 2 ^ 8 by norm_num,
    Nat.testBit_mod_two_pow, Nat.testBit_shiftRight]

lemma land_63_eq_mod (x : Nat) : x &&& 0x3F = x % 64 := by
  have h : (0x3F : Nat) = 2 ^ 6 - 1 := by norm_num
  rw [h, Nat.and_pow_two_sub_one_eq_mod]

lemma h2_from_meta_low6 (g index : Nat) :
    h2_from_meta g index &&& 0x3F = g / 2 ^ (8 * index) % 64 := by
  rw [h2_from_meta_eq, land_63_eq_mod]
  exact Nat.mod_mod_of_dvd _ (by norm_num)

lemma reserveLoop_one_isSome (cell h2 index : Nat) :
    (reserveLoop 1 cell cell h2 index).isSome = true := by
  simp only [reserveLoop]
  repeat' split
  all_goals simp_all

/-- C1: on each snapshot, `MetaData::reserve` decides in this order: a set
valid bit yields `OccupiedWithSameH2` exactly when lane `index` equals `h2`; a
set LOCKED bit yields `AlreadyReservedWithSameH2` exactly when the low six
bits of lane `index` equal the low six bits of `h2`; a set bucket-moved bit
yields `SlotAvailableButGroupMoved`; otherwise a CAS installs
`(h2 & 0x3F) | LOCKED` in lane `index`, returning `Reserved` on success and
re-deciding on the refreshed snapshot on failure. -/
theorem C1_reserve_decision (cell g h2 index : Nat) (_hh2 : h2 < 256) :
    (g.testBit (56 + index) = true →
      (g / 2 ^ (8 * index) % 256 = h2 →
        reserve cell g h2 index = some (.OccupiedWithSameH2, g, cell)) ∧
      (g / 2 ^ (8 * index) % 256 ≠ h2 →
        reserve cell g h2 index = some (.AlreadyReservedWithOtherH2, g, cell))) ∧
    (g.testBit (56 + index) = false → g.testBit (8 * index + 7) = true →
      (g / 2 ^ (8 * index) % 64 = h2 % 64 →
        reserve cell g h2 index = some (.AlreadyReservedWithSameH2, g, cell)) ∧
      (g / 2 ^ (8 * index) % 64 ≠ h2 % 64 →
        reserve cell g h2 index = some (.AlreadyReservedWithOtherH2, g, cell))) ∧
    (g.testBit (56 + index) = false → g.testBit (8 * index + 7) = false →
      g.testBit 63 = true →
      reserve cell g h2 index = some (.SlotAvailableButGroupMoved, g, cell)) ∧
    (g.testBit (56 + index) = false → g.testBit (8 * index + 7) = false →
      g.testBit 63 = false →
      (cell = g →
        reserve cell g h2 index =
          some (.Reserved, reserveNewWord g h2 index, reserveNewWord g h2 index)) ∧
      (cell ≠ g →
        reserve cell g h2 index = reserveLoop 1 cell cell h2 index ∧
        (reserveLoop 1 cell cell h2 index).isSome = true)) := by
  have hv := test_valid_bit_eq g index
  have hl := test_lock_bit_eq g index
  have hm := bucket_moved_eq g
  refine ⟨?_, ?_, ?_, ?_⟩
  · intro hvt
    constructor
    · intro hbyte
      simp [reserve, reserveLoop, hv, hvt, h2_from_meta_eq, hbyte]
    · intro hbyte
      simp [reserve, reserveLoop, hv, hvt, h2_from_meta_eq, hbyte]
  · intro hvt hlt
    have hmm : ∀ x : Nat, x % 256 % 64 = x % 64 := fun x =>
      Nat.mod_mod_of_dvd x (by norm_num)
    constructor
    · intro hlow
      simp [reserve, reserveLoop, hv, hvt, hl, hlt, h2_from_meta_eq,
        land_63_eq_mod, hmm, hlow]
    · intro hlow
      simp [reserve, reserveLoop, hv, hvt, hl, hlt, h2_from_meta_eq,
        land_63_eq_mod, hmm, hlow]
  · intro hvt hlt hmt
    simp [reserve, reserveLoop, hv, hvt, hl, hlt, hm, hmt]
  · intro hvt hlt hmt
    constructor
    · intro hc
      subst hc
      simp [reserve, reserveLoop, hv, hvt, hl, hlt, hm, hmt]
    · intro hc
      refine ⟨?_, reserveLoop_one_isSome cell h2 index⟩
      simp [reserve, reserveLoop, hv, hvt, hl, hlt, hm, hmt, hc]

/-- Witness for C1: reserving slot 0 with `h2 = 0x3F` on an all-empty word
installs lane 0 = `0xBF`, matching the repository's own unit test. -/
theorem C1_witness :
    (0x3F : Nat) < 256 ∧
    reserve 0 0 0x3F 0 =
      some (.Reserved, reserveNewWord 0 0x3F 0, reserveNewWord 0 0x3F 0) :=
  ⟨by norm_num,
    ((C1_reserve_decision 0 0 0x3F 0 (by norm_num)).2.2.2
      (by decide) (by decide) (by decide)).1 rfl⟩

/-! ## `set_valid_and_unpark` -/

lemma testBit_setValidNewWord (cell h2v index b : Nat)
    (_hi : index < 7) (hh : h2v < 256) (hb : b < 64) :
    (setValidNewWord cell h2v index).testBit b =
      if b = 56 + index then true
      else if 8 * index ≤ b ∧ b < 8 * index + 8 then h2v.testBit (b - 8 * index)
      else cell.testBit b := by
  simp only [setValidNewWord, NOT64, valid_bit_eq, Nat.testBit_or, Nat.testBit_and,
    Nat.testBit_xor, testBit_h2_bits, testBit_ff, Nat.testBit_two_pow_sub_one,
    Nat.testBit_two_pow]
  rcases eq_or_ne b (56 + index) with rfl | hbv
  · rw [if_pos rfl]
    simp
  · rw [if_neg hbv]
    by_cases hbyte : 8 * index ≤ b ∧ b < 8 * index + 8
    · rw [if_pos hbyte]
      have h1 : b - 8 * index < 8 := by omega
      simp [hbyte.1, h1, hb, Ne.symm hbv]
    · rw [if_neg hbyte]
      by_cases hble : 8 * index ≤ b
      · have h1 : ¬ b - 8 * index < 8 := by omega
        have h2 : h2v.testBit (b - 8 * index) = false := testBit_small_off hh (by omega)
        simp [hble, h1, hb, Ne.symm hbv, h2]
      · simp [hble, hb, Ne.symm hbv]

lemma setValidNewWord_lt (cell h2v index : Nat)
    (hi : index < 7) (hh : h2v < 256) (hcell : cell < 2 ^ 64) :
    setValidNewWord cell h2v index < 2 ^ 64 := by
  have h1 : cell &&& NOT64 (h2_bits 0xFF index) < 2 ^ 64 :=
    lt_of_le_of_lt Nat.and_le_left hcell
  have h2 : valid_bit index < 2 ^ 64 := by
    rw [valid_bit_eq]
    exact Nat.pow_lt_pow_right (by norm_num) (by omega)
  have h3 : h2_bits h2v index < 2 ^ 64 := by
    rw [h2_bits, Nat.shiftLeft_eq]
    calc h2v * 2 ^ (8 * index) < 256 * 2 ^ (8 * index) := by
          exact (Nat.mul_lt_mul_right
            (Nat.pos_pow_of_pos (8 * index) (by norm_num : 0 < 2))).mpr hh
      _ = 2 ^ (8 * index + 8) := by rw [pow_add]; ring
      _ ≤ 2 ^ 64 := Nat.pow_le_pow_right (by norm_num) (by omega)
  exact Nat.or_lt_two_pow (Nat.or_lt_two_pow h1 h2) h3

lemma byteOf_setValidNewWord (cell h2v index : Nat)
    (hi : index < 7) (hh : h2v < 256) :
    byteOf (setValidNewWord cell h2v index) index = h2v := by
  apply Nat.eq_of_testBit_eq
  intro k
  rw [testBit_byteOf]
  by_cases hk : k < 8
  · have hb : 8 * index + k < 64 := by omega
    rw [testBit_setValidNewWord cell h2v index _ hi hh hb]
    have h1 : 8 * index + k ≠ 56 + index := by omega
    have h2 : 8 * index ≤ 8 * index + k ∧ 8 * index + k < 8 * index + 8 := by omega
    rw [if_neg h1, if_pos h2]
    simp [hk]
  · have h2 : h2v.testBit k = false := testBit_small_off hh (by omega)
    simp [hk, h2]

/-- C7: `set_valid_and_unpark` installs exactly the 8-bit tag `h2` in lane
`index` with the slot's valid bit set and every other bit of the replaced
word unchanged; it wakes the parkers keyed on the word's address plus
`index` exactly when the PARKED bit of the replaced word was set; and it
returns the bucket-moved flag of the replaced word. -/
theorem C7_set_valid_and_unpark (addr cell g h2v index : Nat)
    (hi : index < 7) (hh : h2v < 256) (hcell : cell < 2 ^ 64) :
    set_valid_and_unpark addr cell g h2v index =
      some (setValidNewWord cell h2v index,
        if cell.testBit (8 * index + 6) then some (addr + index) else none,
        cell.testBit 63) ∧
    byteOf (setValidNewWord cell h2v index) index = h2v ∧
    (setValidNewWord cell h2v index).testBit (56 + index) = true ∧
    (∀ b, b < 64 → b ≠ 56 + index → (b < 8 * index ∨ 8 * index + 8 ≤ b) →
      (setValidNewWord cell h2v index).testBit b = cell.testBit b) ∧
    setValidNewWord cell h2v index < 2 ^ 64 := by
  refine ⟨?_, byteOf_setValidNewWord cell h2v index hi hh, ?_, ?_, ?_⟩
  · by_cases hcg : cell = g
    · subst hcg
      simp [set_valid_and_unpark, setValidLoop, test_park_bit_eq, bucket_moved_eq, lock_addr]
    · simp [set_valid_and_unpark, setValidLoop, hcg, test_park_bit_eq, bucket_moved_eq,
        lock_addr]
  · rw [testBit_setValidNewWord cell h2v index _ hi hh (by omega), if_pos rfl]
  · intro b hb hbv hout
    rw [testBit_setValidNewWord cell h2v index _ hi hh hb, if_neg hbv,
      if_neg (by omega)]
  · exact setValidNewWord_lt cell h2v index hi hh hcell

/-- Witness for C7, at the word of the repository's `set_valid` unit test. -/
theorem C7_witness :
    set_valid_and_unpark 0 (valid_bit 0 ||| h2_bits 0xAB 0 ||| h2_bits 0xAD 1)
        (valid_bit 0 ||| h2_bits 0xAB 0 ||| h2_bits 0xAD 1) 0xAC 1 =
      some (setValidNewWord (valid_bit 0 ||| h2_bits 0xAB 0 ||| h2_bits 0xAD 1) 0xAC 1,
        if (valid_bit 0 ||| h2_bits 0xAB 0 ||| h2_bits 0xAD 1).testBit (8 * 1 + 6) then
          some (0 + 1)
        else none,
        (valid_bit 0 ||| h2_bits 0xAB 0 ||| h2_bits 0xAD 1).testBit 63) :=
  (C7_set_valid_and_unpark 0 _ _ 0xAC 1 (by norm_num) (by norm_num) (by decide)).1

/-! ## Invariant preservation of the metadata word transitions -/

lemma testBit_or_h2_bits_outside (g x index b : Nat) (hx : x < 256)
    (hout : b < 8 * index ∨ 8 * index + 8 ≤ b) :
    (g ||| h2_bits x index).testBit b = g.testBit b := by
  rw [Nat.testBit_or, testBit_h2_bits]
  rcases hout with h | h
  · simp [show ¬ 8 * index ≤ b by omega]
  · have hx0 : x.testBit (b - 8 * index) = false := testBit_small_off hx (by omega)
    simp [show 8 * index ≤ b by omega, hx0]

lemma byteOf_or_h2_bits_ne (g x index j : Nat) (hx : x < 256) (hj : j ≠ index) :
    byteOf (g ||| h2_bits x index) j = byteOf g j := by
  apply Nat.eq_of_testBit_eq
  intro k
  rw [testBit_byteOf, testBit_byteOf]
  by_cases hk : k < 8
  · rw [testBit_or_h2_bits_outside g x index _ hx (by omega)]
  · simp [hk]

lemma reserveLane_lt (h2v : Nat) : (h2v &&& 0x3F ||| LOCKED_BIT) < 256 := by
  have h1 : h2v &&& 0x3F < 256 := lt_of_le_of_lt Nat.and_le_right (by norm_num)
  exact Nat.or_lt_two_pow (n := 8) h1 (by norm_num [LOCKED_BIT])

lemma moved_mask_eq : GROUP_MOVED_BIT_MASK = 2 ^ 63 := by norm_num [GROUP_MOVED_BIT_MASK]

lemma testBit_markMoved (g b : Nat) (hb : b ≠ 63) :
    (markMovedNewWord g).testBit b = g.testBit b := by
  rw [markMovedNewWord, moved_mask_eq, Nat.testBit_or, Nat.testBit_two_pow]
  simp [Ne.symm hb]

lemma byteOf_markMoved (g j : Nat) (hj : j < 7) :
    byteOf (markMovedNewWord g) j = byteOf g j := by
  apply Nat.eq_of_testBit_eq
  intro k
  rw [testBit_byteOf, testBit_byteOf]
  by_cases hk : k < 8
  · rw [testBit_markMoved g _ (by omega)]
  · simp [hk]

lemma byteOf_setValid_ne (g h2v index j : Nat)
    (hi : index < 7) (hj : j < 7) (hh : h2v < 256) (hne : j ≠ index) :
    byteOf (setValidNewWord g h2v index) j = byteOf g j := by
  apply Nat.eq_of_testBit_eq
  intro k
  rw [testBit_byteOf, testBit_byteOf]
  by_cases hk : k < 8
  · rw [testBit_setValidNewWord g h2v index _ hi hh (by omega),
      if_neg (by omega), if_neg (by omega)]
  · simp [hk]

lemma reserve_success_not_moved :
    ∀ fuel cell g h2v index r s c,
      reserveLoop fuel cell g h2v index = some (r, s, c) →
      r = ReserveResult.Reserved → bucket_moved cell = false := by
  intro fuel
  induction fuel with
  | zero => intro cell g h2v index r s c h _; simp [reserveLoop] at h
  | succ fuel ih =>
    intro cell g h2v index r s c h hr
    subst hr
    simp only [reserveLoop] at h
    split at h
    · split at h <;> simp_all
    · split at h
      · split at h <;> simp_all
      · split at h
        · simp_all
        · split at h
          · rename_i hvalid hlock hmoved hcg
            subst hcg
            simpa using hmoved
          · exact ih cell cell h2v index _ s c h rfl

/-- C2: every atomic update of the metadata word (the reserve CAS, the
publish CAS of `set_valid_and_unpark`, the parked-bit CAS of
`wait_on_lock_release`, and the fetch-or of `mark_as_moved`) keeps every
already-valid slot valid with its 8-bit lane unchanged, never clears the
bucket-moved bit, and no successful reserve CAS starts from a word whose
bucket-moved bit is set. -/
theorem C2_metadata_invariants :
    (∀ g h2v index j, index < 7 → j < 7 → h2v < 256 →
      g.testBit (56 + index) = false → g.testBit (56 + j) = true →
      (reserveNewWord g h2v index).testBit (56 + j) = true ∧
      byteOf (reserveNewWord g h2v index) j = byteOf g j) ∧
    (∀ g h2v index j, index < 7 → j < 7 → h2v < 256 →
      g.testBit (56 + index) = false → g.testBit (56 + j) = true →
      (setValidNewWord g h2v index).testBit (56 + j) = true ∧
      byteOf (setValidNewWord g h2v index) j = byteOf g j) ∧
    (∀ g index j, index < 7 → j < 7 →
      g.testBit (56 + index) = false → g.testBit (56 + j) = true →
      (parkNewWord g index).testBit (56 + j) = true ∧
      byteOf (parkNewWord g index) j = byteOf g j) ∧
    (∀ g j, j < 7 → g.testBit (56 + j) = true →
      (markMovedNewWord g).testBit (56 + j) = g.testBit (56 + j) ∧
      byteOf (markMovedNewWord g) j = byteOf g j) ∧
    (∀ g h2v index, index < 7 → g.testBit 63 = true →
      (reserveNewWord g h2v index).testBit 63 = true) ∧
    (∀ g h2v index, index < 7 → h2v < 256 → g.testBit 63 = true →
      (setValidNewWord g h2v index).testBit 63 = true) ∧
    (∀ g index, index < 7 → g.testBit 63 = true →
      (parkNewWord g index).testBit 63 = true) ∧
    (∀ g, (markMovedNewWord g).testBit 63 = true) ∧
    (∀ fuel cell g h2v index r s c,
      reserveLoop fuel cell g h2v index = some (r, s, c) →
      r = ReserveResult.Reserved → cell.testBit 63 = false) := by
  refine ⟨?_, ?_, ?_, ?_, ?_, ?_, ?_, ?_, ?_⟩
  · intro g h2v index j hi hj hh hvi hvj
    have hne : j ≠ index := fun he => by rw [he] at hvj; rw [hvj] at hvi; cases hvi
    refine ⟨?_, byteOf_or_h2_bits_ne g _ index j (reserveLane_lt h2v) hne⟩
    rw [reserveNewWord, testBit_or_h2_bits_outside g _ index _ (reserveLane_lt h2v)
      (by omega)]
    exact hvj
  · intro g h2v index j hi hj hh hvi hvj
    have hne : j ≠ index := fun he => by rw [he] at hvj; rw [hvj] at hvi; cases hvi
    refine ⟨?_, byteOf_setValid_ne g h2v index j hi hj hh hne⟩
    rw [testBit_setValidNewWord g h2v index _ hi hh (by omega)]
    rw [if_neg (by omega), if_neg (by omega)]
    exact hvj
  · intro g index j hi hj hvi hvj
    have hne : j ≠ index := fun he => by rw [he] at hvj; rw [hvj] at hvi; cases hvi
    have hp : park_bit index = h2_bits PARK_BIT index := rfl
    refine ⟨?_, ?_⟩
    · rw [parkNewWord, hp,
        testBit_or_h2_bits_outside g _ index _ (by norm_num [PARK_BIT]) (by omega)]
      exact hvj
    · rw [parkNewWord, hp]
      exact byteOf_or_h2_bits_ne g _ index j (by norm_num [PARK_BIT]) hne
  · intro g j hj _
    exact ⟨testBit_markMoved g _ (by omega), byteOf_markMoved g j hj⟩
  · intro g h2v index hi hm
    rw [reserveNewWord, testBit_or_h2_bits_outside g _ index _ (reserveLane_lt h2v)
      (by omega)]
    exact hm
  · intro g h2v index hi hh hm
    rw [testBit_setValidNewWord g h2v index _ hi hh (by omega)]
    rw [if_neg (by omega), if_neg (by omega)]
    exact hm
  · intro g index hi hm
    have hp : park_bit index = h2_bits PARK_BIT index := rfl
    rw [parkNewWord, hp,
      testBit_or_h2_bits_outside g _ index _ (by norm_num [PARK_BIT]) (by omega)]
    exact hm
  · intro g
    rw [markMovedNewWord, moved_mask_eq, Nat.testBit_or, Nat.testBit_two_pow]
    simp
  · intro fuel cell g h2v index r s c h hr
    have := reserve_success_not_moved fuel cell g h2v index r s c h hr
    rwa [bucket_moved_eq] at this

/-- Witness for C2: a word with slot 1 valid and tag `0xAB` keeps that lane
across a reserve CAS on slot 0. -/
theorem C2_witness :
    (0 : Nat) < 7 ∧ (1 : Nat) < 7 ∧ (0x12 : Nat) < 256 ∧
    (valid_bit 1 ||| h2_bits 0xAB 1).testBit (56 + 0) = false ∧
    (valid_bit 1 ||| h2_bits 0xAB 1).testBit (56 + 1) = true ∧
    ((reserveNewWord (valid_bit 1 ||| h2_bits 0xAB 1) 0x12 0).testBit (56 + 1) = true ∧
      byteOf (reserveNewWord (valid_bit 1 ||| h2_bits 0xAB 1) 0x12 0) 1 =
        byteOf (valid_bit 1 ||| h2_bits 0xAB 1) 1) :=
  ⟨by norm_num, by norm_num, by norm_num, by decide, by decide,
    C2_metadata_invariants.1 (valid_bit 1 ||| h2_bits 0xAB 1) 0x12 0 1
      (by norm_num) (by norm_num) (by norm_num) (by decide) (by decide)⟩

/-! ## The bitmask iterator and the SIMD byte match -/

set_option maxRecDepth 8192 in
lemma bitMask_eq_filter :
    ∀ m, m < 256 → bitMaskIter m = (List.range 8).filter (fun i => m.testBit i) := by
  decide

lemma testBit_maskBits (f : Nat → Bool) (n b : Nat) :
    (maskBits f n).testBit b = (decide (b < n) && f b) := by
  induction n with
  | zero => simp [maskBits]
  | succ n ih =>
    rcases eq_or_ne b n with rfl | hbn
    · cases hfb : f b <;>
        simp [maskBits, Nat.testBit_or, ih, hfb, Nat.testBit_two_pow]
    · have hdec : decide (b < n) = decide (b < n + 1) :=
        decide_eq_decide.mpr (by omega)
      cases hfn : f n <;>
        simp [maskBits, Nat.testBit_or, ih, hfn, Nat.testBit_two_pow,
          Ne.symm hbn, ← hdec]

lemma testBit_simd_eq_mask (hashes value b : Nat) :
    (simd_eq_mask hashes value).testBit b =
      (decide (b < 8) && (byteOf hashes b == value)) := by
  rw [simd_eq_mask, testBit_maskBits]

lemma testBit_simd_ne_zero_mask (hashes b : Nat) :
    (simd_ne_zero_mask hashes).testBit b =
      (decide (b < 8) && (byteOf hashes b != 0)) := by
  rw [simd_ne_zero_mask, testBit_maskBits]

lemma match_byte_eq_filter (valid_bits hashes value : Nat) (hv : valid_bits < 128) :
    match_byte valid_bits hashes value =
      (List.range 7).filter (fun i => (byteOf hashes i == value) && valid_bits.testBit i) := by
  have hlt : simd_eq_mask hashes value &&& valid_bits < 256 :=
    Nat.and_lt_two_pow _ (show valid_bits < 2 ^ 8 by omega)
  rw [match_byte, bitMask_eq_filter _ hlt]
  have h7 : (simd_eq_mask hashes value &&& valid_bits).testBit 7 = false := by
    have : valid_bits.testBit 7 = false :=
      Nat.testBit_lt_two_pow (show valid_bits < 2 ^ 7 by omega)
    simp [Nat.testBit_and, this]
  have hsplit : List.range 8 = List.range 7 ++ [7] := by decide
  rw [hsplit, List.filter_append]
  have htail : List.filter (fun i => (simd_eq_mask hashes value &&& valid_bits).testBit i) [7] = [] := by
    simp [List.filter, h7]
  rw [htail, List.append_nil]
  apply List.filter_congr
  intro i hi
  have hi7 : i < 7 := List.mem_range.mp hi
  simp [Nat.testBit_and, testBit_simd_eq_mask, show i < 8 by omega]

/-- C8: `match_byte` yields exactly the indices `i ∈ 0..6`, in increasing
order, such that byte `i` of the metadata word equals `h2` and bit `i` of
the valid mask is set — the scalar reference semantics. -/
theorem C8_match_byte_scalar (valid_bits hashes value : Nat) (hv : valid_bits < 128) :
    match_byte valid_bits hashes value =
      (List.range 7).filter (fun i => (byteOf hashes i == value) && valid_bits.testBit i) :=
  match_byte_eq_filter valid_bits hashes value hv

lemma filter_range8_to7 (p : Nat → Bool) (h7 : p 7 = false) :
    (List.range 8).filter p = (List.range 7).filter p := by
  have hsplit : List.range 8 = List.range 7 ++ [7] := by decide
  rw [hsplit, List.filter_append]
  simp [List.filter, h7]

lemma full_mask_eq : GROUP_FULL_BIT_MASK = h2_bits 127 7 := by
  norm_num [GROUP_FULL_BIT_MASK, h2_bits, Nat.shiftLeft_eq]

lemma testBit_get_valid_bits (g i : Nat) :
    (get_valid_bits g).testBit i = (decide (i < 7) && g.testBit (56 + i)) := by
  have h56 : (64 : Nat) - 8 = 56 := by norm_num
  rw [get_valid_bits, h56, Nat.testBit_shiftRight, Nat.testBit_and, full_mask_eq,
    testBit_h2_bits]
  have he : 56 + i - 8 * 7 = i := by omega
  have hle : 8 * 7 ≤ 56 + i := by omega
  rw [he, show (127 : Nat) = 2 ^ 7 - 1 by norm_num, Nat.testBit_two_pow_sub_one]
  simp [hle, Bool.and_comm]

lemma get_valid_bits_lt (g : Nat) : get_valid_bits g < 128 := by
  have : ∀ i, i ≥ 7 → (get_valid_bits g).testBit i = false := by
    intro i hi
    rw [testBit_get_valid_bits]
    simp [show ¬ i < 7 by omega]
  calc get_valid_bits g < 2 ^ 7 := Nat.lt_pow_two_of_testBit _ this
    _ = 128 := by norm_num

lemma bitMaskIter_valid_bits (g : Nat) :
    bitMaskIter (get_valid_bits g) = (List.range 7).filter (fun i => g.testBit (56 + i)) := by
  rw [bitMask_eq_filter _ (lt_trans (get_valid_bits_lt g) (by norm_num))]
  rw [filter_range8_to7 _ (by simp [testBit_get_valid_bits])]
  apply List.filter_congr
  intro i hi
  simp [testBit_get_valid_bits, List.mem_range.mp hi]

lemma count_locked_eq (snap : Nat) :
    count_locked_slots (get_valid_bits snap) snap =
      ((((List.range 7).filter (fun i =>
          (byteOf snap i != 0) && !snap.testBit (56 + i))).length : Int)) := by
  have hM : ∀ i, (simd_ne_zero_mask snap &&& NOT8 (get_valid_bits snap) &&& 0x7F).testBit i
      = (decide (i < 7) && ((byteOf snap i != 0) && !snap.testBit (56 + i))) := by
    intro i
    simp only [Nat.testBit_and, testBit_simd_ne_zero_mask, NOT8, Nat.testBit_xor, testBit_ff,
      show (0x7F : Nat) = 2 ^ 7 - 1 by norm_num, Nat.testBit_two_pow_sub_one,
      testBit_get_valid_bits]
    by_cases h7 : i < 7
    · simp [h7, show i < 8 by omega]
    · simp [h7]
  have hdrop : (List.range 7).filter
      (fun i => decide (i < 7) && ((byteOf snap i != 0) && !snap.testBit (56 + i))) =
      (List.range 7).filter (fun i => (byteOf snap i != 0) && !snap.testBit (56 + i)) := by
    apply List.filter_congr
    intro i hi
    simp [List.mem_range.mp hi]
  rw [count_locked_slots]
  congr 1
  rw [count_ones8, List.filter_congr (fun i _ => hM i),
    filter_range8_to7 _ (by simp), hdrop]

/-- C3: `to_be_moved` starts at minus the bucket count; `transfer_bucket`
contributes 0 when the fetch-or finds the moved bit already set, and
otherwise one plus the number of slots of the captured snapshot whose lane
is non-zero but whose valid bit is clear; and the winning thread copies
exactly the valid slots of that snapshot (in index order) to the successor. -/
theorem C3_transfer_accounting :
    (∀ (T : Type) (z : T) (buckets : Nat), 1 ≤ buckets →
      (new_uninitialized z buckets).toBeMoved =
        -(tableBuckets (new_uninitialized z buckets) : Int)) ∧
    (∀ (T : Type) (meta0 : Nat → Nat) (slots0 : Nat → Nat → T),
      (RawInterner_new meta0 slots0).toBeMoved =
        -(tableBuckets (RawInterner_new meta0 slots0) : Int)) ∧
    (∀ (T : Type) (cellMeta : Nat) (slots : Nat → T),
      (cellMeta.testBit 63 = true → transfer_bucket cellMeta slots = (0, [])) ∧
      (cellMeta.testBit 63 = false →
        transfer_bucket cellMeta slots =
          ((((List.range 7).filter (fun i =>
              (byteOf (markMovedNewWord cellMeta) i != 0) &&
              !(markMovedNewWord cellMeta).testBit (56 + i))).length : Int) + 1,
            ((List.range 7).filter
              (fun i => (markMovedNewWord cellMeta).testBit (56 + i))).map slots))) := by
  refine ⟨?_, ?_, ?_⟩
  · intro T z buckets hb
    simp only [new_uninitialized, tableBuckets]
    congr 1
    omega
  · intro T meta0 slots0
    simp [RawInterner_new, tableBuckets]
  · intro T cellMeta slots
    constructor
    · intro hm
      simp [transfer_bucket, mark_as_moved, bucket_moved_eq, hm]
    · intro hm
      simp only [transfer_bucket, mark_as_moved, bucket_moved_eq, hm, Bool.not_false]
      rw [if_neg (by simp)]
      rw [count_locked_eq, bitMaskIter_valid_bits]

/-- Witness for C3 (`transfer_bucket` part): a bucket with slot 0 valid
(tag `0xAB`) and slot 1 locked transfers slot 0's value and contributes
`1 + 1`. -/
theorem C3_witness :
    ((valid_bit 0 ||| h2_bits 0xAB 0 ||| h2_bits 0x80 1).testBit 63 = false) ∧
    transfer_bucket (valid_bit 0 ||| h2_bits 0xAB 0 ||| h2_bits 0x80 1)
        (fun i => 10 + i) =
      ((((List.range 7).filter (fun i =>
          (byteOf (markMovedNewWord (valid_bit 0 ||| h2_bits 0xAB 0 ||| h2_bits 0x80 1)) i != 0) &&
          !(markMovedNewWord (valid_bit 0 ||| h2_bits 0xAB 0 ||| h2_bits 0x80 1)).testBit (56 + i))).length : Int) + 1,
        ((List.range 7).filter
          (fun i => (markMovedNewWord (valid_bit 0 ||| h2_bits 0xAB 0 ||| h2_bits 0x80 1)).testBit (56 + i))).map
          (fun i => 10 + i)) :=
  ⟨by decide,
    (C3_transfer_accounting.2.2 Nat (valid_bit 0 ||| h2_bits 0xAB 0 ||| h2_bits 0x80 1)
      (fun i => 10 + i)).2 (by decide)⟩

/-- Witness for C8: the repository's `multiple_slot_valid` unit test. -/
theorem C8_witness :
    (0b1010001 : Nat) < 128 ∧
    match_byte 0b1010001 ((42 <<< 0) ||| ((42 <<< 32) ||| (42 <<< 48))) 42 =
      (List.range 7).filter
        (fun i => (byteOf ((42 <<< 0) ||| ((42 <<< 32) ||| (42 <<< 48))) i == 42) &&
          (0b1010001 : Nat).testBit i) :=
  ⟨by norm_num, C8_match_byte_scalar _ _ _ (by norm_num)⟩

/-! ## Probing and capacity -/

/-- C5 (code bug): the probe sequence the code generates is linear, not
triangular.  `ProbeSeq::next` computes `(self.pos + self.stride) & mask` and
increments `stride` but never writes `self.pos` back, so on a 128-bucket
table with `resize_limit = 4` and `H1 = 0` it yields `[0, 1, 2, 3]`; the
triangular recurrence `pos ← pos + stride` described by both the claim and
the function's own doc comment yields `[0, 1, 3, 6]`. -/
theorem C5_probe_is_linear_not_triangular :
    probePositions (new_uninitialized (T := Nat) 0 128) 0 = [0, 1, 2, 3] ∧
    [0, 1, 2, 3] ≠ [0, 1, 3, (3 + 3 : Nat)] := by
  constructor
  · rfl
  · decide

/-- The least power of two that `next_pow_two_aux` returns, with enough fuel. -/
lemma next_pow_two_aux_spec :
    ∀ fuel x, 1 ≤ x → x ≤ 2 ^ fuel →
      ∃ k, next_pow_two_aux fuel x = 2 ^ k ∧ x ≤ 2 ^ k ∧ ∀ j, x ≤ 2 ^ j → k ≤ j := by
  intro fuel
  induction fuel with
  | zero =>
    intro x h1 h2
    refine ⟨0, ?_, ?_, ?_⟩
    · simp [next_pow_two_aux]
    · simpa using h2
    · intro j _
      omega
  | succ fuel ih =>
    intro x h1 h2
    by_cases hx1 : x ≤ 1
    · refine ⟨0, ?_, by simpa using hx1, fun j _ => by omega⟩
      simp [next_pow_two_aux, hx1]
    · have hx2 : 2 ≤ x := by omega
      have hpow : 2 ^ (fuel + 1) = 2 ^ fuel * 2 := pow_succ 2 fuel
      have hhalf1 : 1 ≤ (x + 1) / 2 := by omega
      have hhalf2 : (x + 1) / 2 ≤ 2 ^ fuel := by omega
      obtain ⟨k, hk, hle, hmin⟩ := ih ((x + 1) / 2) hhalf1 hhalf2
      refine ⟨k + 1, ?_, ?_, ?_⟩
      · simp only [next_pow_two_aux, hx1, if_false, hk]
        rw [pow_succ]
        ring
      · have : 2 ^ (k + 1) = 2 ^ k * 2 := pow_succ 2 k
        omega
      · intro j hj
        cases j with
        | zero => simp at hj; omega
        | succ j' =>
          have hj' : (x + 1) / 2 ≤ 2 ^ j' := by
            have : 2 ^ (j' + 1) = 2 ^ j' * 2 := pow_succ 2 j'
            omega
          exact Nat.succ_le_succ (hmin j' hj')

/-- C6 counterexample: at capacity 1 the claimed size
`next power of two ≥ ⌈(n+5)/6⌉ = 1 = 2^0` disagrees with the allocated
bucket count, which is 2. -/
theorem C6_counterexample :
    (with_capacity (T := Nat) 0 1).map tableBuckets = some 2 ∧
    (1 + 5) / 6 = 2 ^ 0 ∧ (2 : Nat) ≠ 2 ^ 0 := by
  refine ⟨rfl, by norm_num, by norm_num⟩

lemma tableBuckets_new_uninitialized {T : Type} (z : T) (b : Nat) (hb : 1 ≤ b) :
    tableBuckets (new_uninitialized z b) = b := by
  simp only [tableBuckets, new_uninitialized]
  omega

/-- C6 (amended): for every capacity hint `n ≥ 1` for which the computation
(`7·n`, then `+ 5`) does not overflow `usize`, `with_capacity n` allocates
the next power of two that is at least `(7·n + 5) / 6` buckets — the code
multiplies the capacity by 7 instead of the claimed `⌈(n+5)/6⌉` sizing. -/
theorem C6_with_capacity_buckets (T : Type) (z : T) (cap : Nat)
    (hc : 1 ≤ cap) (hov : cap * 7 + 5 < 2 ^ 64) :
    ∃ k : Nat, (with_capacity z cap).map tableBuckets = some (2 ^ k) ∧
      (cap * 7 + 5) / 6 ≤ 2 ^ k ∧ ∀ j : Nat, (cap * 7 + 5) / 6 ≤ 2 ^ j → k ≤ j := by
  have hx1 : 1 ≤ (cap * 7 + 5) / 6 := by omega
  have hx2 : (cap * 7 + 5) / 6 ≤ 2 ^ 64 := by omega
  obtain ⟨k, hk, hle, hmin⟩ := next_pow_two_aux_spec 64 _ hx1 hx2
  refine ⟨k, ?_, hle, hmin⟩
  have hcap0 : cap ≠ 0 := by omega
  have hnov : ¬ 2 ^ 64 ≤ cap * 7 := by omega
  rw [with_capacity, if_neg hcap0, capacity_to_buckets, if_neg hnov]
  rw [Option.map_some', Option.map_some', Nat.mod_eq_of_lt hov]
  rw [show next_power_of_two ((cap * 7 + 5) / 6) = 2 ^ k from hk,
    tableBuckets_new_uninitialized z _ Nat.one_le_two_pow]

/-- Witness for C6 (amended): capacity 6 allocates 8 buckets, the least
power of two ≥ ⌈7·6/6⌉ = 7. -/
theorem C6_witness :
    (1 ≤ 6 ∧ 6 * 7 + 5 < 2 ^ 64) ∧
    ∃ k : Nat, (with_capacity (T := Nat) 0 6).map tableBuckets = some (2 ^ k) ∧
      (6 * 7 + 5) / 6 ≤ 2 ^ k ∧ ∀ j : Nat, (6 * 7 + 5) / 6 ≤ 2 ^ j → k ≤ j :=
  ⟨⟨by norm_num, by norm_num⟩,
    C6_with_capacity_buckets Nat 0 6 (by norm_num) (by norm_num)⟩

/-- C10: every probe position is `≤ bucket_mask`, so `buckets.add(pos)`
stays inside the allocated array; and on the unallocated table from
`RawInterner::new` (`bucket_mask = 0`, `resize_limit = 0`) the probe
sequence is empty, so — for every junk content of the dangling bucket
memory — `lock_or_get_slot` reports `ResizeNeeded` and `get` reports
definitive absence without reading a single bucket. -/
theorem C10_probe_bounds_and_empty_table :
    (∀ (T : Type) (t : Table T) (hash p : Nat),
      p ∈ probePositions t hash → p ≤ t.bucketMask) ∧
    (∀ (T : Type) (meta0 : Nat → Nat) (slots0 : Nat → Nat → T) (hash : Nat)
        (q : T → Bool),
      lock_or_get_slot (RawInterner_new meta0 slots0) hash q = .ResizeNeeded) ∧
    (∀ (T : Type) (meta0 : Nat → Nat) (slots0 : Nat → Nat → T) (hash : Nat)
        (p : T → Bool),
      get (RawInterner_new meta0 slots0) hash p = some none) := by
  refine ⟨?_, ?_, ?_⟩
  · intro T t hash p hp
    obtain ⟨stride, _, rfl⟩ := List.mem_map.mp hp
    exact Nat.and_le_right
  · intro T meta0 slots0 hash q
    rfl
  · intro T meta0 slots0 hash p
    rfl

/-- Witness for C10: a concrete in-bounds probe position on a two-bucket
table. -/
theorem C10_witness :
    ((1 : Nat) ∈ probePositions (new_uninitialized (T := Nat) 0 2) 5) ∧
    (1 : Nat) ≤ (new_uninitialized (T := Nat) 0 2).bucketMask :=
  ⟨by decide,
    C10_probe_bounds_and_empty_table.1 Nat (new_uninitialized 0 2) 5 1 (by decide)⟩

/-! ## Read-only lookup -/

lemma match_byte_meta (m h2v : Nat) :
    match_byte (get_valid_bits m) m h2v =
      (List.range 7).filter (fun i => (byteOf m i == h2v) && m.testBit (56 + i)) := by
  rw [match_byte_eq_filter _ _ _ (get_valid_bits_lt m)]
  apply List.filter_congr
  intro i hi
  simp [testBit_get_valid_bits, List.mem_range.mp hi]

lemma findMatch_some {T : Type} (slots : Nat → T) (p : T → Bool) :
    ∀ l v, findMatch slots p l = some v → ∃ i ∈ l, v = slots i ∧ p v = true := by
  intro l
  induction l with
  | nil => intro v h; simp [findMatch] at h
  | cons j rest ih =>
    intro v h
    simp only [findMatch] at h
    by_cases hj : p (slots j) = true
    · rw [if_pos hj] at h
      obtain rfl : slots j = v := by injection h
      exact ⟨j, by simp, rfl, hj⟩
    · rw [if_neg hj] at h
      obtain ⟨i, hmem, rfl, hp⟩ := ih v h
      exact ⟨i, by simp [hmem], rfl, hp⟩

lemma findMatch_of_mem {T : Type} (slots : Nat → T) (p : T → Bool) :
    ∀ l i, i ∈ l → p (slots i) = true →
      ∃ w, findMatch slots p l = some w ∧ p w = true := by
  intro l
  induction l with
  | nil => intro i hmem; simp at hmem
  | cons j rest ih =>
    intro i hmem hp
    by_cases hj : p (slots j) = true
    · exact ⟨slots j, by simp [findMatch, hj], hj⟩
    · have hir : i ∈ rest := by
        rcases List.mem_cons.mp hmem with rfl | h
        · exact absurd hp hj
        · exact h
      obtain ⟨w, hw, hpw⟩ := ih i hir hp
      exact ⟨w, by simp [findMatch, hj, hw], hpw⟩

lemma getGo_finds {T : Type} (t : Table T) (h2v : Nat) (p : T → Bool) :
    ∀ l1 pos l2 i,
      (∀ x ∈ l1, bucket_full (t.meta x) = true) →
      i < 7 → (t.meta pos).testBit (56 + i) = true →
      byteOf (t.meta pos) i = h2v →
      p (t.slots pos i) = true →
      ∃ pos' i', pos' ∈ l1 ++ pos :: l2 ∧ i' < 7 ∧
        (t.meta pos').testBit (56 + i') = true ∧
        byteOf (t.meta pos') i' = h2v ∧ p (t.slots pos' i') = true ∧
        getGo t h2v p (l1 ++ pos :: l2) = .foundVal (t.slots pos' i') := by
  intro l1
  induction l1 with
  | nil =>
    intro pos l2 i hfull hi7 hvalid hbyte hp
    have hmem : i ∈ match_byte (get_valid_bits (t.meta pos)) (t.meta pos) h2v := by
      rw [match_byte_meta]
      exact List.mem_filter.mpr ⟨List.mem_range.mpr hi7, by simp [hbyte, hvalid]⟩
    obtain ⟨w, hw, hpw⟩ := findMatch_of_mem (t.slots pos) p _ i hmem hp
    obtain ⟨i', hi'mem, rfl, hp'⟩ := findMatch_some (t.slots pos) p _ w hw
    rw [match_byte_meta] at hi'mem
    obtain ⟨hi'range, hi'prop⟩ := List.mem_filter.mp hi'mem
    simp only [Bool.and_eq_true] at hi'prop
    obtain ⟨hbyte', hvalid'⟩ := hi'prop
    refine ⟨pos, i', by simp, List.mem_range.mp hi'range, hvalid',
      (by simpa using hbyte'), hp', ?_⟩
    simp only [List.nil_append, getGo, hw]
  | cons x rest ih =>
    intro pos l2 i hfull hi7 hvalid hbyte hp
    have hfx : bucket_full (t.meta x) = true := hfull x (by simp)
    cases hfm : findMatch (t.slots x) p
        (match_byte (get_valid_bits (t.meta x)) (t.meta x) h2v) with
    | some v =>
      obtain ⟨i', hi'mem, rfl, hpv⟩ := findMatch_some (t.slots x) p _ v hfm
      rw [match_byte_meta] at hi'mem
      obtain ⟨hi'range, hi'prop⟩ := List.mem_filter.mp hi'mem
      simp only [Bool.and_eq_true] at hi'prop
      obtain ⟨hbyte', hvalid'⟩ := hi'prop
      refine ⟨x, i', by simp, List.mem_range.mp hi'range, hvalid',
        (by simpa using hbyte'), hpv, ?_⟩
      simp only [List.cons_append, getGo, hfm]
    | none =>
      obtain ⟨pos', i', hmem, hlt, hv', hb', hp', hgo⟩ :=
        ih pos l2 i (fun y hy => hfull y (by simp [hy])) hi7 hvalid hbyte hp
      refine ⟨pos', i', by simp [List.mem_append] at hmem ⊢; tauto, hlt, hv', hb', hp', ?_⟩
      simp only [List.cons_append, getGo, hfm, hfx, if_true]
      exact hgo

lemma getGoSt_frame {T : Type} (t : Table T) (h2v : Nat) (p : T → Bool) :
    ∀ poss, (getGoSt t h2v p poss).2 = t ∧ (getGoSt t h2v p poss).1 = getGo t h2v p poss := by
  intro poss
  induction poss with
  | nil => exact ⟨rfl, rfl⟩
  | cons pos rest ih =>
    cases hfm : findMatch (t.slots pos) p
        (match_byte (get_valid_bits (t.meta pos)) (t.meta pos) h2v) with
    | some v => simp [getGoSt, getGo, hfm]
    | none =>
      by_cases hbf : bucket_full (t.meta pos) = true
      · simpa [getGoSt, getGo, hfm, hbf] using ih
      · by_cases hbm : bucket_moved (t.meta pos) = true <;>
          simp [getGoSt, getGo, hfm, hbf, hbm]

/-- C9: `get` never writes — with the table threaded through every step of
the probe loop it returns exactly the table it was given, and its result is
the same as the pure loop — and whenever a valid slot matching the predicate
exists in a probed bucket preceded only by full buckets, `get` returns a
stored matching value. -/
theorem C9_get_readonly_and_finds :
    (∀ (T : Type) (t : Table T) (h2v : Nat) (p : T → Bool) (poss : List Nat),
      (getGoSt t h2v p poss).2 = t ∧ (getGoSt t h2v p poss).1 = getGo t h2v p poss) ∧
    (∀ (T : Type) (t : Table T) (hash : Nat) (p : T → Bool) (l1 l2 : List Nat)
        (pos i : Nat),
      probePositions t hash = l1 ++ pos :: l2 →
      (∀ x ∈ l1, bucket_full (t.meta x) = true) →
      i < 7 → (t.meta pos).testBit (56 + i) = true →
      byteOf (t.meta pos) i = h2 hash →
      p (t.slots pos i) = true →
      ∃ pos' i', i' < 7 ∧ (t.meta pos').testBit (56 + i') = true ∧
        byteOf (t.meta pos') i' = h2 hash ∧ p (t.slots pos' i') = true ∧
        get t hash p = some (some (t.slots pos' i'))) := by
  refine ⟨fun T t h2v p poss => getGoSt_frame t h2v p poss, ?_⟩
  intro T t hash p l1 l2 pos i hprobe hfull hi7 hvalid hbyte hp
  obtain ⟨pos', i', _, hlt, hv', hb', hp', hgo⟩ :=
    getGo_finds t (h2 hash) p l1 pos l2 i hfull hi7 hvalid hbyte hp
  refine ⟨pos', i', hlt, hv', hb', hp', ?_⟩
  rw [get, hprobe, hgo]

/-- Witness for C9: a one-bucket table whose slot 0 is valid with tag 0 and
value 42 answers the matching query. -/
theorem C9_witness :
    get (Table.mk 0 1 false (-1) (fun _ => valid_bit 0) (fun _ _ => (42 : Nat))) 0
        (fun v => v == 42) = some (some 42) := by
  obtain ⟨pos', i', _, _, _, _, hg⟩ :=
    C9_get_readonly_and_finds.2 Nat
      (Table.mk 0 1 false (-1) (fun _ => valid_bit 0) (fun _ _ => (42 : Nat))) 0
      (fun v => v == 42) [] [] 0 0 (by rfl) (by simp) (by norm_num) (by decide)
      (by decide) (by decide)
  exact hg

/-! ## Sequential `intern` -/

lemma h2_lt (hash : Nat) : h2 hash < 256 := Nat.mod_lt _ (by norm_num)

lemma testBit_full_mask (b : Nat) :
    GROUP_FULL_BIT_MASK.testBit b = (decide (56 ≤ b) && decide (b < 63)) := by
  rw [full_mask_eq, testBit_h2_bits, show (127 : Nat) = 2 ^ 7 - 1 by norm_num,
    Nat.testBit_two_pow_sub_one]
  by_cases h56 : 56 ≤ b
  · have hd : (decide (b - 8 * 7 < 7)) = (decide (b < 63)) := decide_eq_decide.mpr (by omega)
    rw [hd]
  · simp [show ¬ 8 * 7 ≤ b by omega, h56]

lemma bucket_full_true_iff (m : Nat) :
    bucket_full m = true ↔ ∀ i, i < 7 → m.testBit (56 + i) = true := by
  rw [bucket_full, beq_iff_eq]
  constructor
  · intro h i hi
    have hc := congrArg (fun x : Nat => x.testBit (56 + i)) h
    simp only [Nat.testBit_and, testBit_full_mask] at hc
    simp only [show 56 ≤ 56 + i by omega, show 56 + i < 63 by omega, decide_True,
      Bool.and_true] at hc
    simpa using hc
  · intro h
    apply Nat.eq_of_testBit_eq
    intro b
    rw [Nat.testBit_and, testBit_full_mask]
    by_cases hb : 56 ≤ b ∧ b < 63
    · have hm : m.testBit b = true := by
        have := h (b - 56) (by omega)
        rwa [show 56 + (b - 56) = b by omega] at this
      simp [hb.1, hb.2, hm]
    · rcases not_and_or.mp hb with h1 | h1 <;> simp [h1]

lemma testBit_7f (k : Nat) : (0x7F : Nat).testBit k = decide (k < 7) := by
  rw [show (0x7F : Nat) = 2 ^ 7 - 1 by norm_num, Nat.testBit_two_pow_sub_one]

lemma freeList_eq (m : Nat) :
    bitMaskIter (NOT8 (get_valid_bits m) &&& 0x7F) =
      (List.range 7).filter (fun i => !m.testBit (56 + i)) := by
  have hlt : NOT8 (get_valid_bits m) &&& 0x7F < 256 :=
    Nat.and_lt_two_pow _ (show (0x7F : Nat) < 2 ^ 8 by norm_num)
  rw [bitMask_eq_filter _ hlt,
    filter_range8_to7 _ (by simp [Nat.testBit_and, testBit_7f])]
  apply List.filter_congr
  intro i hi
  have hi7 := List.mem_range.mp hi
  simp [Nat.testBit_and, NOT8, Nat.testBit_xor, testBit_ff, testBit_get_valid_bits,
    testBit_7f, hi7, show i < 8 by omega]

lemma findMatch_none {T : Type} (slots : Nat → T) (q : T → Bool) :
    ∀ l, findMatch slots q l = none → ∀ i ∈ l, q (slots i) = false := by
  intro l
  induction l with
  | nil => intro _ i hmem; simp at hmem
  | cons x rest ih =>
    intro h i hmem
    simp only [findMatch] at h
    by_cases hx : q (slots x) = true
    · rw [if_pos hx] at h; cases h
    · rw [if_neg hx] at h
      rcases List.mem_cons.mp hmem with rfl | hr
      · simpa using hx
      · exact ih h i hr

lemma findMatch_unique {T : Type} (slots : Nat → T) (q : T → Bool) :
    ∀ l j, j ∈ l → q (slots j) = true →
      (∀ i ∈ l, i ≠ j → q (slots i) = false) →
      findMatch slots q l = some (slots j) := by
  intro l
  induction l with
  | nil => intro j hmem; simp at hmem
  | cons x rest ih =>
    intro j hmem hqj hothers
    by_cases hxj : x = j
    · subst hxj
      simp [findMatch, hqj]
    · have hqx : q (slots x) = false := hothers x (by simp) hxj
      have hjr : j ∈ rest := by
        rcases List.mem_cons.mp hmem with rfl | hr
        · exact absurd rfl hxj
        · exact hr
      rw [findMatch, if_neg (by simp [hqx])]
      exact ih j hjr hqj (fun i hi hij => hothers i (by simp [hi]) hij)

/-- On a quiescent bucket word (clear valid bit implies clear LOCKED bit),
the free-slot head of a non-full bucket resolves the slot loop
immediately: to `moved` on a moved bucket and to `reserved` otherwise. -/
lemma freeHead_resolves {T : Type} (m : Nat) (slots : Nat → T) (h2v : Nat) (q : T → Bool)
    (hquiet : QuietWord m) (hbf : ¬ bucket_full m = true) :
    ∃ j0 tl, bitMaskIter (NOT8 (get_valid_bits m) &&& 0x7F) = j0 :: tl ∧
      j0 < 7 ∧ m.testBit (56 + j0) = false ∧
      slotLoop m slots h2v q (j0 :: tl) =
        (if bucket_moved m then .moved else .reserved j0 (reserveNewWord m h2v j0)) := by
  have hne : bitMaskIter (NOT8 (get_valid_bits m) &&& 0x7F) ≠ [] := by
    rw [freeList_eq]
    intro hempty
    apply hbf
    rw [bucket_full_true_iff]
    intro i hi
    by_contra hmi
    have : i ∈ (List.range 7).filter (fun i => !m.testBit (56 + i)) :=
      List.mem_filter.mpr ⟨List.mem_range.mpr hi, by simp [hmi]⟩
    rw [hempty] at this
    simp at this
  cases hfl : bitMaskIter (NOT8 (get_valid_bits m) &&& 0x7F) with
  | nil => exact absurd hfl hne
  | cons j0 tl =>
    have hj0 : j0 ∈ (List.range 7).filter (fun i => !m.testBit (56 + i)) := by
      rw [← freeList_eq, hfl]; simp
    obtain ⟨hj0r, hj0v⟩ := List.mem_filter.mp hj0
    have hj07 := List.mem_range.mp hj0r
    have hj0valid : m.testBit (56 + j0) = false := by simpa using hj0v
    have hj0lock : test_lock_bit m j0 = false := by
      rw [test_lock_bit_eq]
      exact hquiet j0 hj07 hj0valid
    refine ⟨j0, tl, rfl, hj07, hj0valid, ?_⟩
    rw [slotLoop, if_neg (by rw [test_valid_bit_eq, hj0valid]; simp),
      if_neg (by rw [hj0lock]; simp)]

/-- On a quiescent bucket, `continueNext` forces a full bucket with no
H2/eq match. -/
lemma lockBucket_continue_inv {T : Type} (m : Nat) (slots : Nat → T) (h2v : Nat)
    (q : T → Bool) (hquiet : QuietWord m) :
    lockBucket m slots h2v q = .continueNext →
    bucket_full m = true ∧
    findMatch slots q (match_byte (get_valid_bits m) m h2v) = none := by
  intro h
  cases hfm : findMatch slots q (match_byte (get_valid_bits m) m h2v) with
  | some v => rw [lockBucket, hfm] at h; cases h
  | none =>
    by_cases hbf : bucket_full m = true
    · exact ⟨hbf, rfl⟩
    · obtain ⟨j0, tl, hfl, _, _, hslot⟩ := freeHead_resolves m slots h2v q hquiet hbf
      rw [lockBucket, hfm, if_neg (by simp [hbf]), hfl, hslot] at h
      by_cases hmov : bucket_moved m = true
      · rw [if_pos hmov] at h; cases h
      · rw [if_neg hmov] at h; cases h

/-- On a quiescent bucket, `reserved j w` forces a non-full unmoved bucket
with no match, a clear valid bit on slot `j < 7`, and the installed word
`reserveNewWord` on the snapshot. -/
lemma lockBucket_reserved_inv {T : Type} (m : Nat) (slots : Nat → T) (h2v : Nat)
    (q : T → Bool) (hquiet : QuietWord m) :
    ∀ j w, lockBucket m slots h2v q = .reserved j w →
      findMatch slots q (match_byte (get_valid_bits m) m h2v) = none ∧
      bucket_full m = false ∧ m.testBit (56 + j) = false ∧ j < 7 ∧
      bucket_moved m = false ∧ w = reserveNewWord m h2v j := by
  intro j w h
  cases hfm : findMatch slots q (match_byte (get_valid_bits m) m h2v) with
  | some v => rw [lockBucket, hfm] at h; cases h
  | none =>
    by_cases hbf : bucket_full m = true
    · rw [lockBucket, hfm, if_pos hbf] at h; cases h
    · obtain ⟨j0, tl, hfl, hj07, hj0valid, hslot⟩ :=
        freeHead_resolves m slots h2v q hquiet hbf
      rw [lockBucket, hfm, if_neg (by simp [hbf]), hfl, hslot] at h
      by_cases hmov : bucket_moved m = true
      · rw [if_pos hmov] at h; cases h
      · rw [if_neg hmov] at h
        injection h with h1 h2
        subst h1
        exact ⟨rfl, by simpa using hbf, hj0valid, hj07,
          by simpa using hmov, h2.symm⟩

lemma lockOrGetGo_locked_inv {T : Type} (t : Table T) (h2v : Nat) (q : T → Bool) :
    ∀ poss pos j w, lockOrGetGo t h2v q poss = .Locked pos j w →
      ∃ l1 l2, poss = l1 ++ pos :: l2 ∧
        (∀ x ∈ l1, lockBucket (t.meta x) (t.slots x) h2v q = .continueNext) ∧
        lockBucket (t.meta pos) (t.slots pos) h2v q = .reserved j w := by
  intro poss
  induction poss with
  | nil => intro pos j w h; simp [lockOrGetGo] at h
  | cons x rest ih =>
    intro pos j w h
    rw [lockOrGetGo] at h
    cases hb : lockBucket (t.meta x) (t.slots x) h2v q with
    | found v => rw [hb] at h; cases h
    | continueNext =>
      rw [hb] at h
      obtain ⟨l1, l2, rfl, hcont, hres⟩ := ih pos j w h
      exact ⟨x :: l1, l2, rfl, by
        intro y hy
        rcases List.mem_cons.mp hy with rfl | hyr
        · exact hb
        · exact hcont y hyr, hres⟩
    | reserved i' w' =>
      rw [hb] at h
      injection h with h1 h2 h3
      subst h1; subst h2; subst h3
      exact ⟨[], rest, rfl, by simp, hb⟩
    | moved => rw [hb] at h; cases h
    | blocked => rw [hb] at h; cases h

/-- After the sequential insert of `v` (reserve then publish) in slot `j` of
bucket `pos`, re-running the probe loop finds `v`: the full buckets before
`pos` are untouched, and at `pos` the match phase now sees lane `j = h2`
with the valid bit set. -/
lemma lockOrGetGo_after_insert {T : Type} (t : Table T) (h2v : Nat) (q : T → Bool)
    (pos j : Nat) (v : T) :
    ∀ l1 l2 : List Nat,
      h2v < 256 → j < 7 →
      (t.meta pos).testBit (56 + j) = false →
      q v = true →
      findMatch (t.slots pos) q
        (match_byte (get_valid_bits (t.meta pos)) (t.meta pos) h2v) = none →
      bucket_full (t.meta pos) = false →
      (∀ x ∈ l1, bucket_full (t.meta x) = true ∧
        findMatch (t.slots x) q
          (match_byte (get_valid_bits (t.meta x)) (t.meta x) h2v) = none) →
      lockOrGetGo
        { t with
            slots := updFun2 t.slots pos j v,
            meta := updFun t.meta pos
              (setValidNewWord (reserveNewWord (t.meta pos) h2v j) h2v j) }
        h2v q (l1 ++ pos :: l2) = .Found v := by
  intro l1
  induction l1 with
  | nil =>
    intro l2 hh2v hj7 hjfree hqv hmnone hnotfull _
    set m := t.meta pos with hm
    set w := reserveNewWord m h2v j with hw
    set m2 := setValidNewWord w h2v j with hm2
    set t2 : Table T :=
      { t with slots := updFun2 t.slots pos j v, meta := updFun t.meta pos m2 } with ht2
    have ht2meta : t2.meta pos = m2 := by simp [ht2, updFun]
    have ht2slotj : t2.slots pos j = v := by simp [ht2, updFun2]
    have hbytej : byteOf m2 j = h2v := byteOf_setValidNewWord w h2v j hj7 hh2v
    have hvalidj : m2.testBit (56 + j) = true := by
      rw [hm2, testBit_setValidNewWord w h2v j _ hj7 hh2v (by omega), if_pos rfl]
    have hbyte_ne : ∀ i, i < 7 → i ≠ j → byteOf m2 i = byteOf m i := by
      intro i hi7 hij
      rw [hm2, byteOf_setValid_ne w h2v j i hj7 hi7 hh2v hij, hw,
        reserveNewWord, byteOf_or_h2_bits_ne m _ j i (reserveLane_lt h2v) hij]
    have hvalid_ne : ∀ i, i < 7 → i ≠ j → m2.testBit (56 + i) = m.testBit (56 + i) := by
      intro i hi7 hij
      rw [hm2, testBit_setValidNewWord w h2v j _ hj7 hh2v (by omega),
        if_neg (by omega), if_neg (by omega), hw, reserveNewWord,
        testBit_or_h2_bits_outside m _ j _ (reserveLane_lt h2v) (by omega)]
    have hfm2 : findMatch (t2.slots pos) q
        (match_byte (get_valid_bits m2) m2 h2v) = some v := by
      rw [← ht2slotj]
      apply findMatch_unique
      · rw [match_byte_meta]
        exact List.mem_filter.mpr ⟨List.mem_range.mpr hj7, by simp [hbytej, hvalidj]⟩
      · rwa [ht2slotj]
      · intro i hi hij
        rw [match_byte_meta] at hi
        obtain ⟨hir, hip⟩ := List.mem_filter.mp hi
        have hi7 := List.mem_range.mp hir
        simp only [Bool.and_eq_true, beq_iff_eq] at hip
        have hiold : i ∈ match_byte (get_valid_bits m) m h2v := by
          rw [match_byte_meta]
          refine List.mem_filter.mpr ⟨hir, ?_⟩
          simp [← hbyte_ne i hi7 hij, ← hvalid_ne i hi7 hij, hip.1, hip.2]
        have hslots : t2.slots pos i = t.slots pos i := by
          simp [ht2, updFun2, hij]
        rw [hslots]
        exact findMatch_none (t.slots pos) q _ hmnone i hiold
    show lockOrGetGo t2 h2v q (pos :: l2) = .Found v
    rw [lockOrGetGo, lockBucket, ht2meta, hfm2]
  | cons x rest ih =>
    intro l2 hh2v hj7 hjfree hqv hmnone hnotfull hfull
    have hfx := hfull x (by simp)
    have hxpos : x ≠ pos := by
      intro he
      rw [he, hnotfull] at hfx
      cases hfx.1
    set t2 : Table T :=
      { t with slots := updFun2 t.slots pos j v,
               meta := updFun t.meta pos
                 (setValidNewWord (reserveNewWord (t.meta pos) h2v j) h2v j) } with ht2
    have ht2meta : t2.meta x = t.meta x := by simp [ht2, updFun, hxpos]
    have ht2slots : t2.slots x = t.slots x := funext fun b => by
      simp [ht2, updFun2, hxpos]
    show lockOrGetGo t2 h2v q (x :: (rest ++ pos :: l2)) = .Found v
    rw [lockOrGetGo, lockBucket, ht2meta, ht2slots, hfx.2, if_pos hfx.1]
    exact ih l2 hh2v hj7 hjfree hqv hmnone hnotfull
      (fun y hy => hfull y (by simp [hy]))


/-! ## The table chain: preservation and replay lemmas -/

lemma markMoved_idem (g : Nat) :
    markMovedNewWord (markMovedNewWord g) = markMovedNewWord g := by
  rw [markMovedNewWord, markMovedNewWord, Nat.or_assoc, Nat.or_self]

lemma get_valid_bits_markMoved (g : Nat) :
    get_valid_bits (markMovedNewWord g) = get_valid_bits g := by
  apply Nat.eq_of_testBit_eq
  intro i
  rw [testBit_get_valid_bits, testBit_get_valid_bits]
  by_cases hi : i < 7
  · rw [testBit_markMoved g _ (by omega)]
  · simp [hi]

lemma bucket_full_markMoved (g : Nat) :
    bucket_full (markMovedNewWord g) = bucket_full g := by
  have h : markMovedNewWord g &&& GROUP_FULL_BIT_MASK = g &&& GROUP_FULL_BIT_MASK := by
    apply Nat.eq_of_testBit_eq
    intro b
    rw [Nat.testBit_and, Nat.testBit_and, testBit_full_mask]
    by_cases hb : 56 ≤ b ∧ b < 63
    · rw [testBit_markMoved g _ (by omega)]
    · rcases not_and_or.mp hb with h1 | h1 <;> simp [h1]
  rw [bucket_full, bucket_full, h]

lemma match_byte_markMoved (m h2v : Nat) :
    match_byte (get_valid_bits (markMovedNewWord m)) (markMovedNewWord m) h2v =
      match_byte (get_valid_bits m) m h2v := by
  rw [match_byte_meta, match_byte_meta]
  apply List.filter_congr
  intro i hi
  have hi7 := List.mem_range.mp hi
  rw [byteOf_markMoved m i hi7, testBit_markMoved m _ (by omega)]

lemma QuietWord_markMoved {g : Nat} (h : QuietWord g) :
    QuietWord (markMovedNewWord g) := by
  intro idx hidx hval
  rw [testBit_markMoved g (56 + idx) (by omega)] at hval
  rw [testBit_markMoved g (8 * idx + 7) (by omega)]
  exact h idx hidx hval

lemma QuietWord_zero : QuietWord 0 := by
  intro idx _ _
  simp

lemma QuietWord_publish {m h2v j : Nat} (hq : QuietWord m) (hj : j < 7)
    (hh : h2v < 256) :
    QuietWord (setValidNewWord (reserveNewWord m h2v j) h2v j) := by
  intro idx hidx hval
  by_cases hij : idx = j
  · subst hij
    rw [testBit_setValidNewWord _ h2v idx _ hj hh (by omega), if_pos rfl] at hval
    cases hval
  · rw [testBit_setValidNewWord _ h2v j _ hj hh (by omega), if_neg (by omega),
      if_neg (by omega), reserveNewWord,
      testBit_or_h2_bits_outside _ _ j _ (reserveLane_lt h2v) (by omega)] at hval
    rw [testBit_setValidNewWord _ h2v j _ hj hh (by omega), if_neg (by omega),
      if_neg (by omega), reserveNewWord,
      testBit_or_h2_bits_outside _ _ j _ (reserveLane_lt h2v) (by omega)]
    exact hq idx hidx hval

lemma QuietTable_publish {T : Type} {t : Table T} {pos j h2v : Nat} {v : T}
    (hq : QuietTable t) (hj : j < 7) (hh : h2v < 256) :
    QuietTable (publishTable t pos j h2v v (reserveNewWord (t.meta pos) h2v j)) := by
  intro p
  by_cases hp : p = pos
  · subst hp
    have : (publishTable t p j h2v v (reserveNewWord (t.meta p) h2v j)).meta p =
        setValidNewWord (reserveNewWord (t.meta p) h2v j) h2v j := by
      simp [publishTable, updFun]
    rw [this]
    exact QuietWord_publish (hq p) hj hh
  · have : (publishTable t pos j h2v v (reserveNewWord (t.meta pos) h2v j)).meta p =
        t.meta p := by
      simp [publishTable, updFun, hp]
    rw [this]
    exact hq p

lemma probePositions_congr {T : Type} (t t2 : Table T) (hash : Nat)
    (hm : t2.bucketMask = t.bucketMask) (hl : t2.resizeLimit = t.resizeLimit) :
    probePositions t2 hash = probePositions t hash := by
  rw [probePositions, probePositions, hm, hl]

lemma lockOrGetGo_resize_inv {T : Type} (t : Table T) (h2v : Nat) (q : T → Bool) :
    ∀ poss, lockOrGetGo t h2v q poss = .ResizeNeeded →
      ∀ pos ∈ poss, lockBucket (t.meta pos) (t.slots pos) h2v q = .continueNext := by
  intro poss
  induction poss with
  | nil => intro _ pos hmem; simp at hmem
  | cons x rest ih =>
    intro h pos hmem
    rw [lockOrGetGo] at h
    cases hb : lockBucket (t.meta x) (t.slots x) h2v q with
    | continueNext =>
      rw [hb] at h
      rcases List.mem_cons.mp hmem with rfl | hr
      · exact hb
      · exact ih h pos hr
    | found v => rw [hb] at h; cases h
    | reserved i w => rw [hb] at h; cases h
    | moved => rw [hb] at h; cases h
    | blocked => rw [hb] at h; cases h

/-- Replaying the probe of a table whose buckets have (at most) gained the
moved bit: a `ResizeNeeded` verdict is stable, because fullness, the valid
bits, the lanes and the stored slots are all untouched by the fetch-or. -/
lemma lockOrGetGo_resize_replay {T : Type} (t t2 : Table T) (h2v : Nat) (q : T → Bool)
    (hquiet : QuietTable t)
    (hmeta : ∀ p, t2.meta p = markMovedNewWord (t.meta p) ∨ t2.meta p = t.meta p)
    (hslots : t2.slots = t.slots) :
    ∀ poss, lockOrGetGo t h2v q poss = .ResizeNeeded →
      lockOrGetGo t2 h2v q poss = .ResizeNeeded := by
  intro poss
  induction poss with
  | nil => intro _; rfl
  | cons pos rest ih =>
    intro h
    have hcont := lockOrGetGo_resize_inv t h2v q (pos :: rest) h pos (by simp)
    obtain ⟨hfull, hnone⟩ := lockBucket_continue_inv _ _ _ _ (hquiet pos) hcont
    have hrest : lockOrGetGo t h2v q rest = .ResizeNeeded := by
      rw [lockOrGetGo, hcont] at h
      exact h
    have hcont2 : lockBucket (t2.meta pos) (t2.slots pos) h2v q = .continueNext := by
      rcases hmeta pos with hm | hm
      · rw [hm, hslots, lockBucket, match_byte_markMoved, hnone,
          if_pos (by rw [bucket_full_markMoved]; exact hfull)]
      · rw [hm, hslots]
        exact hcont
    rw [lockOrGetGo, hcont2]
    exact ih hrest

lemma transferSlotLoop_reserved_inv (m h2v : Nat) :
    ∀ l j w, (∀ i ∈ l, i < 7) → transferSlotLoop m h2v l = .reserved j w →
      j < 7 ∧ test_valid_bit m j = false ∧ bucket_moved m = false ∧
      w = reserveNewWord m h2v j := by
  intro l
  induction l with
  | nil => intro j w _ h; simp [transferSlotLoop] at h
  | cons i rest ih =>
    intro j w hmem h
    rw [transferSlotLoop] at h
    by_cases hv : test_valid_bit m i = true
    · rw [if_pos hv] at h
      exact ih j w (fun x hx => hmem x (by simp [hx])) h
    · rw [if_neg hv] at h
      by_cases hl : test_lock_bit m i = true
      · rw [if_pos hl] at h
        exact ih j w (fun x hx => hmem x (by simp [hx])) h
      · rw [if_neg hl] at h
        by_cases hm : bucket_moved m = true
        · rw [if_pos hm] at h; cases h
        · rw [if_neg hm] at h
          cases h
          exact ⟨hmem i (by simp), by simpa using hv, by simpa using hm, rfl⟩

lemma lockSlotForTransfer_locked_inv {T : Type} (t : Table T) (h2v : Nat) :
    ∀ poss pos j w, lockSlotForTransferGo t h2v poss = .Locked pos j w →
      j < 7 ∧ (t.meta pos).testBit (56 + j) = false ∧
      bucket_moved (t.meta pos) = false ∧ w = reserveNewWord (t.meta pos) h2v j := by
  intro poss
  induction poss with
  | nil => intro pos j w h; simp [lockSlotForTransferGo] at h
  | cons x rest ih =>
    intro pos j w h
    rw [lockSlotForTransferGo] at h
    by_cases hbf : bucket_full (t.meta x) = true
    · rw [if_pos hbf] at h
      exact ih pos j w h
    · rw [if_neg hbf] at h
      have hbound : ∀ i ∈ bitMaskIter (NOT8 (get_valid_bits (t.meta x)) &&& 0x7F),
          i < 7 := by
        intro i hi
        rw [freeList_eq] at hi
        exact List.mem_range.mp (List.mem_filter.mp hi).1
      cases hsl : transferSlotLoop (t.meta x) h2v
          (bitMaskIter (NOT8 (get_valid_bits (t.meta x)) &&& 0x7F)) with
      | reserved j0 w0 =>
        rw [hsl] at h
        injection h with h1 h2 h3
        subst h1; subst h2; subst h3
        obtain ⟨hj, hv, hm, hw⟩ := transferSlotLoop_reserved_inv _ _ _ _ _ hbound hsl
        exact ⟨hj, by rwa [test_valid_bit_eq] at hv, hm, hw⟩
      | moved => rw [hsl] at h; cases h
      | found v => rw [hsl] at h; exact ih pos j w h
      | blocked => rw [hsl] at h; exact ih pos j w h
      | fallthrough => rw [hsl] at h; exact ih pos j w h

lemma transferSlots_quiet {T : Type} (tv : T → List (Table T) → Option (List (Table T)))
    (slots : Nat → T)
    (htv : ∀ v c c2, QuietChain c → tv v c = some c2 → QuietChain c2) :
    ∀ l c c2, QuietChain c → transferSlots tv slots l c = some c2 → QuietChain c2 := by
  intro l
  induction l with
  | nil =>
    intro c c2 hc h
    rw [transferSlots] at h
    cases h
    exact hc
  | cons i rest ih =>
    intro c c2 hc h
    rw [transferSlots] at h
    cases htvi : tv (slots i) c with
    | none => rw [htvi] at h; cases h
    | some c1 =>
      rw [htvi] at h
      exact ih c1 c2 (htv _ _ _ hc htvi) h

lemma transferAllBuckets_quiet {T : Type}
    (tv : T → List (Table T) → Option (List (Table T)))
    (htv : ∀ v c c2, QuietChain c → tv v c = some c2 → QuietChain c2) :
    ∀ L (t : Table T) chain acc t2 chain2 tot, QuietChain chain →
      transferAllBuckets tv L t chain acc = some (t2, chain2, tot) →
      QuietChain chain2 := by
  intro L
  induction L with
  | nil =>
    intro t chain acc t2 chain2 tot hc h
    rw [transferAllBuckets] at h
    cases h
    exact hc
  | cons pos restPos ih =>
    intro t chain acc t2 chain2 tot hc h
    rw [transferAllBuckets] at h
    by_cases hr : (mark_as_moved (t.meta pos)).2 = false
    · rw [if_pos hr] at h
      exact ih _ chain _ t2 chain2 tot hc h
    · rw [if_neg hr] at h
      cases hts : transferSlots tv
          ({ t with meta := updFun t.meta pos (mark_as_moved (t.meta pos)).1 }.slots pos)
          (bitMaskIter (get_valid_bits (mark_as_moved (t.meta pos)).1)) chain with
      | none => rw [hts] at h; cases h
      | some chain1 =>
        rw [hts] at h
        exact ih _ chain1 _ t2 chain2 tot
          (transferSlots_quiet tv _ htv _ chain chain1 hc hts) h

lemma transferAllBuckets_shape {T : Type}
    (tv : T → List (Table T) → Option (List (Table T))) :
    ∀ L (t : Table T) chain acc t2 chain2 tot,
      transferAllBuckets tv L t chain acc = some (t2, chain2, tot) →
      t2.bucketMask = t.bucketMask ∧ t2.resizeLimit = t.resizeLimit ∧
      t2.slots = t.slots ∧ t2.toBeMoved = t.toBeMoved ∧
      ∀ p, t2.meta p = markMovedNewWord (t.meta p) ∨ t2.meta p = t.meta p := by
  intro L
  induction L with
  | nil =>
    intro t chain acc t2 chain2 tot h
    rw [transferAllBuckets] at h
    cases h
    exact ⟨rfl, rfl, rfl, rfl, fun p => Or.inr rfl⟩
  | cons pos restPos ih =>
    intro t chain acc t2 chain2 tot h
    rw [transferAllBuckets] at h
    have hstep : ∀ p,
        ({ t with meta := updFun t.meta pos (mark_as_moved (t.meta pos)).1 } : Table T).meta p =
          markMovedNewWord (t.meta p) ∨
        ({ t with meta := updFun t.meta pos (mark_as_moved (t.meta pos)).1 } : Table T).meta p =
          t.meta p := by
      intro p
      by_cases hp : p = pos
      · subst hp
        exact Or.inl (by simp [updFun, mark_as_moved])
      · exact Or.inr (by simp [updFun, hp])
    have hcomb : ∀ t' : Table T,
        (∀ p, t'.meta p = markMovedNewWord (t.meta p) ∨ t'.meta p = t.meta p) →
        (∀ p, t2.meta p = markMovedNewWord (t'.meta p) ∨ t2.meta p = t'.meta p) →
        ∀ p, t2.meta p = markMovedNewWord (t.meta p) ∨ t2.meta p = t.meta p := by
      intro t' h1 h2 p
      rcases h2 p with h2p | h2p <;> rcases h1 p with h1p | h1p
      · exact Or.inl (by rw [h2p, h1p, markMoved_idem])
      · exact Or.inl (by rw [h2p, h1p])
      · exact Or.inl (by rw [h2p, h1p])
      · exact Or.inr (by rw [h2p, h1p])
    by_cases hr : (mark_as_moved (t.meta pos)).2 = false
    · rw [if_pos hr] at h
      obtain ⟨a, b, c, d, e⟩ := ih _ chain _ t2 chain2 tot h
      exact ⟨a, b, c, d, hcomb _ hstep e⟩
    · rw [if_neg hr] at h
      cases hts : transferSlots tv
          ({ t with meta := updFun t.meta pos (mark_as_moved (t.meta pos)).1 }.slots pos)
          (bitMaskIter (get_valid_bits (mark_as_moved (t.meta pos)).1)) chain with
      | none => rw [hts] at h; cases h
      | some chain1 =>
        rw [hts] at h
        obtain ⟨a, b, c, d, e⟩ := ih _ chain1 _ t2 chain2 tot h
        exact ⟨a, b, c, d, hcomb _ hstep e⟩

lemma bulkTransferAux_shape {T : Type}
    (tv : T → List (Table T) → Option (List (Table T)))
    (t : Table T) (chain : List (Table T)) (t2 : Table T) (chain2 : List (Table T)) :
    bulkTransferAux tv t chain = some (t2, chain2) →
    t2.bucketMask = t.bucketMask ∧ t2.resizeLimit = t.resizeLimit ∧
    t2.slots = t.slots ∧
    ∀ p, t2.meta p = markMovedNewWord (t.meta p) ∨ t2.meta p = t.meta p := by
  intro h
  rw [bulkTransferAux] at h
  by_cases hm : t.bucketMask ≠ 0
  · rw [if_pos hm] at h
    cases hab : transferAllBuckets tv (List.range (t.bucketMask + 1)) t chain 0 with
    | none => rw [hab] at h; cases h
    | some r =>
      obtain ⟨t3, chain3, tot⟩ := r
      rw [hab] at h
      cases h
      obtain ⟨a, b, c, _, e⟩ := transferAllBuckets_shape tv _ t chain 0 _ _ _ hab
      exact ⟨a, b, c, e⟩
  · rw [if_neg hm] at h
    cases h
    exact ⟨rfl, rfl, rfl, fun p => Or.inr rfl⟩

lemma bulkTransferAux_quiet {T : Type}
    (tv : T → List (Table T) → Option (List (Table T)))
    (htv : ∀ v c c2, QuietChain c → tv v c = some c2 → QuietChain c2)
    (t : Table T) (chain : List (Table T)) (t2 : Table T) (chain2 : List (Table T))
    (hc : QuietChain chain) (hqt : QuietTable t) :
    bulkTransferAux tv t chain = some (t2, chain2) →
    QuietChain chain2 ∧ QuietTable t2 := by
  intro h
  have hshape := bulkTransferAux_shape tv t chain t2 chain2 h
  have hqt2 : QuietTable t2 := by
    intro p
    rcases hshape.2.2.2 p with hp | hp
    · rw [hp]; exact QuietWord_markMoved (hqt p)
    · rw [hp]; exact hqt p
  rw [bulkTransferAux] at h
  by_cases hm : t.bucketMask ≠ 0
  · rw [if_pos hm] at h
    cases hab : transferAllBuckets tv (List.range (t.bucketMask + 1)) t chain 0 with
    | none => rw [hab] at h; cases h
    | some r =>
      obtain ⟨t3, chain3, tot⟩ := r
      rw [hab] at h
      cases h
      exact ⟨transferAllBuckets_quiet tv htv _ t chain 0 _ _ _ hc hab, hqt2⟩
  · rw [if_neg hm] at h
    cases h
    exact ⟨hc, hqt2⟩

lemma transferValue_succ {T : Type} (hashOf : T → Nat) (z : T) (fuel : Nat) (v : T)
    (t : Table T) (rest : List (Table T)) :
    transferValue hashOf z (fuel + 1) v (t :: rest) =
      match lock_slot_for_transfer t (h2 (hashOf v)) (hashOf v) with
      | .Locked pos j w =>
        if bucket_moved w then
          match transferValue hashOf z fuel v
              (publishTable t pos j (h2 (hashOf v)) v w :: rest) with
          | some (t3 :: rest3) => some ({ t3 with toBeMoved := t3.toBeMoved - 1 } :: rest3)
          | _ => none
        else some (publishTable t pos j (h2 (hashOf v)) v w :: rest)
      | .Moved =>
        match rest with
        | [] => none
        | next :: rest2 =>
          match transferValue hashOf z fuel v (next :: rest2) with
          | some rest3 => some (t :: rest3)
          | none => none
      | .ResizeNeeded =>
        match bulkTransferAux (transferValue hashOf z fuel) t
            (match rest with
              | [] => [new_uninitialized z ((t.bucketMask + 1) * 2)]
              | next :: rest2 => next :: rest2) with
        | some (t2, chain2) =>
          match transferValue hashOf z fuel v chain2 with
          | some chain3 => some (t2 :: chain3)
          | none => none
        | none => none
      | .Found _ => none
      | .Blocked => none := rfl

lemma internChain_succ {T : Type} (hashOf : T → Nat) (z : T) (fuel hash : Nat)
    (q : T → Bool) (mk : Unit → T) (t : Table T) (rest : List (Table T)) :
    internChain hashOf z (fuel + 1) (t :: rest) hash q mk =
      match lock_or_get_slot t hash q with
      | .Found v => some (v, t :: rest, false)
      | .Locked pos j w =>
        if bucket_moved w then
          match transferValue hashOf z fuel (mk ())
              (publishTable t pos j (h2 hash) (mk ()) w :: rest) with
          | some (t3 :: rest3) =>
            some (mk (), { t3 with toBeMoved := t3.toBeMoved - 1 } :: rest3, true)
          | _ => none
        else some (mk (), publishTable t pos j (h2 hash) (mk ()) w :: rest, true)
      | .ResizeNeeded =>
        match rest with
        | [] =>
          match bulkTransferAux (transferValue hashOf z fuel) t
              [new_uninitialized z ((t.bucketMask + 1) * 2)] with
          | some (t2, chain2) =>
            match internChain hashOf z fuel chain2 hash q mk with
            | some (v, chain3, b) => some (v, t2 :: chain3, b)
            | none => none
          | none => none
        | next :: rest2 =>
          match internChain hashOf z fuel (next :: rest2) hash q mk with
          | some (v, rest3, b) => some (v, t :: rest3, b)
          | none => none
      | .Moved =>
        match rest with
        | [] => none
        | next :: rest2 =>
          match internChain hashOf z fuel (next :: rest2) hash q mk with
          | some (v, rest3, b) => some (v, t :: rest3, b)
          | none => none
      | .Blocked => none := rfl

lemma transferValue_quiet {T : Type} (hashOf : T → Nat) (z : T) :
    ∀ fuel v ts ts2, QuietChain ts →
      transferValue hashOf z fuel v ts = some ts2 → QuietChain ts2 := by
  intro fuel
  induction fuel with
  | zero => intro v ts ts2 _ h; simp [transferValue] at h
  | succ fuel ih =>
    intro v ts ts2 hq h
    cases ts with
    | nil => simp [transferValue] at h
    | cons t rest =>
      have hqt : QuietTable t := hq t (by simp)
      have hqrest : QuietChain rest := fun x hx => hq x (by simp [hx])
      rw [transferValue_succ] at h
      cases hls : lock_slot_for_transfer t (h2 (hashOf v)) (hashOf v) with
      | Locked pos j w =>
        simp only [hls] at h
        obtain ⟨hj, hfree, hmov, hweq⟩ :=
          lockSlotForTransfer_locked_inv t (h2 (hashOf v)) _ pos j w hls
        subst hweq
        have hbmw : bucket_moved (reserveNewWord (t.meta pos) (h2 (hashOf v)) j) = false := by
          rw [bucket_moved_eq, reserveNewWord,
            testBit_or_h2_bits_outside _ _ j _ (reserveLane_lt (h2 (hashOf v))) (by omega)]
          rw [bucket_moved_eq] at hmov
          exact hmov
        rw [hbmw] at h
        simp only [Bool.false_eq_true, if_false] at h
        cases h
        intro x hx
        rcases List.mem_cons.mp hx with rfl | hxr
        · exact QuietTable_publish hqt hj (h2_lt (hashOf v))
        · exact hqrest x hxr
      | Moved =>
        simp only [hls] at h
        cases rest with
        | nil => simp at h
        | cons next rest2 =>
          cases htv : transferValue hashOf z fuel v (next :: rest2) with
          | none => simp only [htv] at h; cases h
          | some rest3 =>
            simp only [htv, Option.some.injEq] at h
            subst h
            intro x hx
            rcases List.mem_cons.mp hx with rfl | hxr
            · exact hqt
            · exact ih v (next :: rest2) rest3 hqrest htv x hxr
      | ResizeNeeded =>
        simp only [hls] at h
        cases rest with
        | nil =>
          replace h : (match bulkTransferAux (transferValue hashOf z fuel) t
              [new_uninitialized z ((t.bucketMask + 1) * 2)] with
            | some (t2, chain2) =>
              match transferValue hashOf z fuel v chain2 with
              | some chain3 => some (t2 :: chain3)
              | none => none
            | none => none) = some ts2 := h
          have hqnext : QuietChain [new_uninitialized z ((t.bucketMask + 1) * 2)] := by
            intro x hx
            simp only [List.mem_singleton] at hx
            subst hx
            intro p
            simpa [new_uninitialized] using QuietWord_zero
          cases hbt : bulkTransferAux (transferValue hashOf z fuel) t
              [new_uninitialized z ((t.bucketMask + 1) * 2)] with
          | none => simp only [hbt] at h; cases h
          | some r =>
            obtain ⟨t2, chain2⟩ := r
            simp only [hbt] at h
            obtain ⟨hqchain2, hqt2⟩ :=
              bulkTransferAux_quiet _ (fun v c c2 => ih v c c2) t _ t2 chain2 hqnext hqt hbt
            cases htv : transferValue hashOf z fuel v chain2 with
            | none => simp only [htv] at h; cases h
            | some chain3 =>
              simp only [htv, Option.some.injEq] at h
              subst h
              intro x hx
              rcases List.mem_cons.mp hx with rfl | hxr
              · exact hqt2
              · exact ih v chain2 chain3 hqchain2 htv x hxr
        | cons next rest2 =>
          replace h : (match bulkTransferAux (transferValue hashOf z fuel) t
              (next :: rest2) with
            | some (t2, chain2) =>
              match transferValue hashOf z fuel v chain2 with
              | some chain3 => some (t2 :: chain3)
              | none => none
            | none => none) = some ts2 := h
          cases hbt : bulkTransferAux (transferValue hashOf z fuel) t (next :: rest2) with
          | none => simp only [hbt] at h; cases h
          | some r =>
            obtain ⟨t2, chain2⟩ := r
            simp only [hbt] at h
            obtain ⟨hqchain2, hqt2⟩ :=
              bulkTransferAux_quiet _ (fun v c c2 => ih v c c2) t _ t2 chain2 hqrest hqt hbt
            cases htv : transferValue hashOf z fuel v chain2 with
            | none => simp only [htv] at h; cases h
            | some chain3 =>
              simp only [htv, Option.some.injEq] at h
              subst h
              intro x hx
              rcases List.mem_cons.mp hx with rfl | hxr
              · exact hqt2
              · exact ih v chain2 chain3 hqchain2 htv x hxr
      | Found v0 => simp only [hls] at h; cases h
      | Blocked => simp only [hls] at h; cases h

lemma internChain_nil {T : Type} (hashOf : T → Nat) (z : T) (hash : Nat)
    (q : T → Bool) (mk : Unit → T) :
    ∀ fuel, internChain hashOf z fuel [] hash q mk = none := by
  intro fuel
  cases fuel <;> rfl

/-- C4: for every query (hash plus equality predicate whose `make` closure
produces a matching value) and every quiescent interner state — any chain of
tables with no slot held mid-insertion, including fresh `new()` tables,
states that force resizes and states with successor tables mid-migration —
if a first `intern_ref` completes (within the given fuel) and returns `v`,
then running `intern_ref` again for the same query on the resulting state
returns the same `v`, leaves the chain unchanged, and never invokes the
second call's `make` closure. -/
theorem C4_intern_idempotent {T : Type} (hashOf : T → Nat) (z : T) (hash : Nat)
    (q : T → Bool) (mk mk2 : Unit → T) (hq : q (mk ()) = true) :
    ∀ fuel ts v ts2 b, QuietChain ts →
      internChain hashOf z fuel ts hash q mk = some (v, ts2, b) →
      internChain hashOf z fuel ts2 hash q mk2 = some (v, ts2, false) := by
  intro fuel
  induction fuel with
  | zero => intro ts v ts2 b _ h; cases h
  | succ fuel ih =>
    intro ts v ts2 b hqc h
    cases ts with
    | nil => rw [internChain_nil] at h; cases h
    | cons t rest =>
      have hqt : QuietTable t := hqc t (by simp)
      have hqrest : QuietChain rest := fun x hx => hqc x (by simp [hx])
      rw [internChain_succ] at h
      cases hls : lock_or_get_slot t hash q with
      | Found v0 =>
        simp only [hls, Option.some.injEq, Prod.mk.injEq] at h
        obtain ⟨rfl, rfl, rfl⟩ := h
        rw [internChain_succ]
        simp only [hls]
      | Locked pos j w =>
        simp only [hls] at h
        obtain ⟨l1, l2, hposs, hcont, hres⟩ :=
          lockOrGetGo_locked_inv t (h2 hash) q (probePositions t hash) pos j w hls
        obtain ⟨hfmnone, hnotfull, hjfree, hj7, hmov, hweq⟩ :=
          lockBucket_reserved_inv _ _ _ _ (hqt pos) j w hres
        subst hweq
        have hbmw : bucket_moved (reserveNewWord (t.meta pos) (h2 hash) j) = false := by
          rw [bucket_moved_eq, reserveNewWord,
            testBit_or_h2_bits_outside _ _ j _ (reserveLane_lt (h2 hash)) (by omega)]
          rw [bucket_moved_eq] at hmov
          exact hmov
        rw [hbmw] at h
        simp only [Bool.false_eq_true, if_false, Option.some.injEq, Prod.mk.injEq] at h
        obtain ⟨rfl, rfl, rfl⟩ := h
        have hfound : lock_or_get_slot
            (publishTable t pos j (h2 hash) (mk ())
              (reserveNewWord (t.meta pos) (h2 hash) j)) hash q = .Found (mk ()) := by
          have hprefix : ∀ x ∈ l1, bucket_full (t.meta x) = true ∧
              findMatch (t.slots x) q
                (match_byte (get_valid_bits (t.meta x)) (t.meta x) (h2 hash)) = none := by
            intro x hx
            exact lockBucket_continue_inv _ _ _ _ (hqt x) (hcont x hx)
          have hrepl := lockOrGetGo_after_insert t (h2 hash) q pos j (mk ()) l1 l2
            (h2_lt hash) hj7 hjfree hq hfmnone hnotfull hprefix
          show lockOrGetGo
            (publishTable t pos j (h2 hash) (mk ())
              (reserveNewWord (t.meta pos) (h2 hash) j)) (h2 hash) q
            (probePositions
              (publishTable t pos j (h2 hash) (mk ())
                (reserveNewWord (t.meta pos) (h2 hash) j)) hash) = .Found (mk ())
          rw [probePositions_congr t
            (publishTable t pos j (h2 hash) (mk ())
              (reserveNewWord (t.meta pos) (h2 hash) j)) hash rfl rfl, hposs]
          exact hrepl
        rw [internChain_succ]
        simp only [hfound]
      | ResizeNeeded =>
        simp only [hls] at h
        cases rest with
        | nil =>
          replace h : (match bulkTransferAux (transferValue hashOf z fuel) t
              [new_uninitialized z ((t.bucketMask + 1) * 2)] with
            | some (t2, chain2) =>
              match internChain hashOf z fuel chain2 hash q mk with
              | some (v, chain3, b) => some (v, t2 :: chain3, b)
              | none => none
            | none => none) = some (v, ts2, b) := h
          cases hbt : bulkTransferAux (transferValue hashOf z fuel) t
              [new_uninitialized z ((t.bucketMask + 1) * 2)] with
          | none => simp only [hbt] at h; cases h
          | some r =>
            obtain ⟨t2, chain2⟩ := r
            simp only [hbt] at h
            have hqnext : QuietChain [new_uninitialized z ((t.bucketMask + 1) * 2)] := by
              intro x hx
              simp only [List.mem_singleton] at hx
              subst hx
              intro p
              simpa [new_uninitialized] using QuietWord_zero
            obtain ⟨hqchain2, hqt2⟩ := bulkTransferAux_quiet _
              (fun v c c2 => transferValue_quiet hashOf z fuel v c c2)
              t _ t2 chain2 hqnext hqt hbt
            cases hic : internChain hashOf z fuel chain2 hash q mk with
            | none => simp only [hic] at h; cases h
            | some r2 =>
              obtain ⟨v2, chain3, b2⟩ := r2
              simp only [hic, Option.some.injEq, Prod.mk.injEq] at h
              obtain ⟨rfl, rfl, rfl⟩ := h
              have hIH := ih chain2 v2 chain3 b2 hqchain2 hic
              have hrn2 : lock_or_get_slot t2 hash q = .ResizeNeeded := by
                obtain ⟨hbm, hrl, hsl, hmeta⟩ := bulkTransferAux_shape _ t _ t2 chain2 hbt
                show lockOrGetGo t2 (h2 hash) q (probePositions t2 hash) = .ResizeNeeded
                rw [probePositions_congr t t2 hash hbm hrl]
                exact lockOrGetGo_resize_replay t t2 (h2 hash) q hqt hmeta hsl _ hls
              cases chain3 with
              | nil => rw [internChain_nil] at hIH; cases hIH
              | cons n3 r3 =>
                rw [internChain_succ]
                simp only [hrn2, hIH]
        | cons next rest2 =>
          replace h : (match internChain hashOf z fuel (next :: rest2) hash q mk with
            | some (v, rest3, b) => some (v, t :: rest3, b)
            | none => none) = some (v, ts2, b) := h
          cases hic : internChain hashOf z fuel (next :: rest2) hash q mk with
          | none => simp only [hic] at h; cases h
          | some r2 =>
            obtain ⟨v2, rest3, b2⟩ := r2
            simp only [hic, Option.some.injEq, Prod.mk.injEq] at h
            obtain ⟨rfl, rfl, rfl⟩ := h
            have hIH := ih (next :: rest2) v2 rest3 b2 hqrest hic
            cases rest3 with
            | nil => rw [internChain_nil] at hIH; cases hIH
            | cons n3 r3 =>
              rw [internChain_succ]
              simp only [hls, hIH]
      | Moved =>
        simp only [hls] at h
        cases rest with
        | nil => simp at h
        | cons next rest2 =>
          replace h : (match internChain hashOf z fuel (next :: rest2) hash q mk with
            | some (v, rest3, b) => some (v, t :: rest3, b)
            | none => none) = some (v, ts2, b) := h
          cases hic : internChain hashOf z fuel (next :: rest2) hash q mk with
          | none => simp only [hic] at h; cases h
          | some r2 =>
            obtain ⟨v2, rest3, b2⟩ := r2
            simp only [hic, Option.some.injEq, Prod.mk.injEq] at h
            obtain ⟨rfl, rfl, rfl⟩ := h
            have hIH := ih (next :: rest2) v2 rest3 b2 hqrest hic
            cases rest3 with
            | nil => rw [internChain_nil] at hIH; cases hIH
            | cons n3 r3 =>
              rw [internChain_succ]
              simp only [hls, hIH]
      | Blocked => simp only [hls] at h; cases h

theorem C4_witness :
    ((fun x : Nat => x == 5) ((fun _ : Unit => (5 : Nat)) ()) = true) ∧
    QuietChain [RawInterner_new (fun _ => 0) (fun _ _ => (0 : Nat))] ∧
    internChain (fun _ => 0) 0 3 [RawInterner_new (fun _ => 0) (fun _ _ => (0 : Nat))] 0
      (fun x => x == 5) (fun _ => 5) =
      some (5,
        [{ RawInterner_new (fun _ => 0) (fun _ _ => (0 : Nat)) with toBeMoved := 0 },
         publishTable (new_uninitialized (0 : Nat) 2) 0 0 0 5 (reserveNewWord 0 0 0)],
        true) ∧
    internChain (fun _ => 0) 0 3
      [{ RawInterner_new (fun _ => 0) (fun _ _ => (0 : Nat)) with toBeMoved := 0 },
       publishTable (new_uninitialized (0 : Nat) 2) 0 0 0 5 (reserveNewWord 0 0 0)] 0
      (fun x => x == 5) (fun _ => 99) =
      some (5,
        [{ RawInterner_new (fun _ => 0) (fun _ _ => (0 : Nat)) with toBeMoved := 0 },
         publishTable (new_uninitialized (0 : Nat) 2) 0 0 0 5 (reserveNewWord 0 0 0)],
        false) := by
  have hquiet : QuietChain [RawInterner_new (fun _ => 0) (fun _ _ => (0 : Nat))] := by
    intro t ht
    simp only [List.mem_singleton] at ht
    subst ht
    intro pos idx hidx hval
    simp [RawInterner_new]
  have hrun : internChain (fun _ => 0) 0 3
      [RawInterner_new (fun _ => 0) (fun _ _ => (0 : Nat))] 0
      (fun x => x == 5) (fun _ => 5) =
      some (5,
        [{ RawInterner_new (fun _ => 0) (fun _ _ => (0 : Nat)) with toBeMoved := 0 },
         publishTable (new_uninitialized (0 : Nat) 2) 0 0 0 5 (reserveNewWord 0 0 0)],
        true) := by rfl
  exact ⟨rfl, hquiet, hrun,
    C4_intern_idempotent (fun _ => 0) 0 0 (fun x => x == 5) (fun _ => 5) (fun _ => 99) rfl
      3 _ 5 _ true hquiet hrun⟩

end Interner
